import Mathlib

/-!
Verification development for the text diff-and-patch engine of the
`act_diffs_project` repository.

The repository's `src/diffs/core.py` delegates the diff/patch algorithm to an
external library (`diff_match_patch`); the specification describes the engine
that the wrappers assume.  The engine below (`compute`, `applyPatch`,
`serialize`, `deserialize`) is therefore modelled from the specification, while
`create_patches`, `apply_patches`, `Section`, `Transaction` and
`apply_transaction` embed the repository's own wrapper code.

Texts are `String`s; internally a text is tokenized into lines that keep their
terminating newline character, so that concatenating the lines reproduces the
text byte-for-byte.
-/

/-- A line of text, keeping its trailing newline character (if any). -/
abbrev Line := List Char

/-- Modelled from the spec: tokenize a text into lines, each keeping its
terminating newline, so an empty text has zero lines and concatenation of the
lines restores the text exactly. -/
def splitLinesKeep : List Char → List Line
  | [] => []
  | c :: cs =>
    if c = '\n' then [c] :: splitLinesKeep cs
    else
      match splitLinesKeep cs with
      | [] => [[c]]
      | l :: ls => (c :: l) :: ls

/-- Concatenate lines back into a character list. -/
def joinLines : List Line → List Char
  | [] => []
  | l :: ls => l ++ joinLines ls

theorem splitLinesKeep_eq_nil_iff (cs : List Char) :
    splitLinesKeep cs = [] ↔ cs = [] := by
  constructor
  · intro h
    cases cs with
    | nil => rfl
    | cons c cs =>
      simp only [splitLinesKeep] at h
      split at h
      · simp at h
      · split at h <;> simp_all
  · intro h; subst h; rfl

theorem joinLines_splitLinesKeep (cs : List Char) :
    joinLines (splitLinesKeep cs) = cs := by
  induction cs with
  | nil => rfl
  | cons c cs ih =>
    simp only [splitLinesKeep]
    split
    · rename_i hc
      simp [joinLines, ih, hc]
    · cases h : splitLinesKeep cs with
      | nil =>
        have : cs = [] := (splitLinesKeep_eq_nil_iff cs).1 h
        subst this
        simp [joinLines]
      | cons l ls =>
        rw [h] at ih
        simp only [joinLines] at ih ⊢
        rw [List.cons_append, ih]

/-- One element of an edit script: an unchanged line, a removed line, or an
added line. -/
inductive DiffOp where
  | keep : Line → DiffOp
  | del : Line → DiffOp
  | ins : Line → DiffOp
deriving DecidableEq, Repr

/-- The contribution of an edit operation to the source text. -/
def opSrc : DiffOp → Option Line
  | .keep l => some l
  | .del l => some l
  | .ins _ => none

/-- The contribution of an edit operation to the target text. -/
def opTgt : DiffOp → Option Line
  | .keep l => some l
  | .del _ => none
  | .ins l => some l

/-- Source lines of an edit script (kept and removed lines). -/
def scriptSrc (s : List DiffOp) : List Line := s.filterMap opSrc

/-- Target lines of an edit script (kept and added lines). -/
def scriptTgt (s : List DiffOp) : List Line := s.filterMap opTgt

/-- Number of source lines covered by an edit script. -/
def countSrc (s : List DiffOp) : Nat := (scriptSrc s).length

/-- Number of target lines produced by an edit script. -/
def countTgt (s : List DiffOp) : Nat := (scriptTgt s).length

theorem scriptSrc_append (a b : List DiffOp) :
    scriptSrc (a ++ b) = scriptSrc a ++ scriptSrc b :=
  List.filterMap_append a b opSrc

theorem scriptTgt_append (a b : List DiffOp) :
    scriptTgt (a ++ b) = scriptTgt a ++ scriptTgt b :=
  List.filterMap_append a b opTgt

theorem scriptSrc_nil : scriptSrc [] = [] := rfl

theorem scriptTgt_nil : scriptTgt [] = [] := rfl

theorem scriptSrc_keeps (k : List Line) :
    scriptSrc (k.map DiffOp.keep) = k := by
  induction k with
  | nil => rfl
  | cons l ls ih =>
    show l :: scriptSrc (ls.map DiffOp.keep) = l :: ls
    rw [ih]

theorem scriptTgt_keeps (k : List Line) :
    scriptTgt (k.map DiffOp.keep) = k := by
  induction k with
  | nil => rfl
  | cons l ls ih =>
    show l :: scriptTgt (ls.map DiffOp.keep) = l :: ls
    rw [ih]

theorem scriptSrc_inss (k : List Line) :
    scriptSrc (k.map DiffOp.ins) = [] := by
  induction k with
  | nil => rfl
  | cons l ls ih =>
    show scriptSrc (ls.map DiffOp.ins) = []
    exact ih

theorem scriptTgt_inss (k : List Line) :
    scriptTgt (k.map DiffOp.ins) = k := by
  induction k with
  | nil => rfl
  | cons l ls ih =>
    show l :: scriptTgt (ls.map DiffOp.ins) = l :: ls
    rw [ih]

theorem scriptSrc_dels (k : List Line) :
    scriptSrc (k.map DiffOp.del) = k := by
  induction k with
  | nil => rfl
  | cons l ls ih =>
    show l :: scriptSrc (ls.map DiffOp.del) = l :: ls
    rw [ih]

theorem scriptTgt_dels (k : List Line) :
    scriptTgt (k.map DiffOp.del) = [] := by
  induction k with
  | nil => rfl
  | cons l ls ih =>
    show scriptTgt (ls.map DiffOp.del) = []
    exact ih

/-- Modelled from the spec: one dynamic-programming step for the length of the
longest common subsequence — given the row of LCS lengths for `as` against all
suffixes of `bs`, produce the row for `a :: as`. -/
def lcsStep (a : Line) : List Line → List Nat → List Nat
  | [], _ => [0]
  | b :: bs, row =>
    let newRest := lcsStep a bs row.tail
    let v :=
      if a = b then 1 + row.tail.headD 0
      else max (row.headD 0) (newRest.headD 0)
    v :: newRest

/-- Modelled from the spec: the table of longest-common-subsequence lengths of
`as` against every suffix of `bs`, used to steer the diff toward a shortest
edit script (Myers-style minimality). -/
def lcsTable : List Line → List Line → List Nat
  | [], bs => List.replicate (bs.length + 1) 0
  | a :: as, bs => lcsStep a bs (lcsTable as bs)

/-- Length of the longest common subsequence of two line lists. -/
def lcsLen (as bs : List Line) : Nat := (lcsTable as bs).headD 0

/-- Modelled from the spec: fuel-indexed line diff.  Equal heads are kept;
otherwise the branch (delete first source line / insert first target line)
whose remainder has the longer common subsequence is chosen, yielding a
shortest edit script.  The fuel is the total number of lines, which always
suffices. -/
def diffLinesF : Nat → List Line → List Line → List DiffOp
  | _, [], bs => bs.map .ins
  | _, a :: as, [] => (a :: as).map .del
  | 0, _ :: _, _ :: _ => []
  | fuel + 1, a :: as, b :: bs =>
    if a = b then .keep a :: diffLinesF fuel as bs
    else if lcsLen as (b :: bs) ≥ lcsLen (a :: as) bs then
      .del a :: diffLinesF fuel as (b :: bs)
    else
      .ins b :: diffLinesF fuel (a :: as) bs

/-- Modelled from the spec: compute a line-level edit script transforming
`as` into `bs`. -/
def diffLines (as bs : List Line) : List DiffOp :=
  diffLinesF (as.length + bs.length) as bs

theorem diffLinesF_src :
    ∀ fuel as bs, as.length + bs.length ≤ fuel →
      scriptSrc (diffLinesF fuel as bs) = as := by
  intro fuel
  induction fuel with
  | zero =>
    intro as bs h
    match as, bs with
    | [], bs => simp [diffLinesF, scriptSrc_inss]
    | a :: as, [] => simpa [diffLinesF] using scriptSrc_dels (a :: as)
    | a :: as, b :: bs => simp at h
  | succ fuel ih =>
    intro as bs h
    match as, bs with
    | [], bs => simp [diffLinesF, scriptSrc_inss]
    | a :: as, [] => simpa [diffLinesF] using scriptSrc_dels (a :: as)
    | a :: as, b :: bs =>
      simp only [diffLinesF]
      split
      · rename_i hab
        simp only [List.length_cons] at h
        have := ih as bs (by omega)
        simp [scriptSrc, List.filterMap_cons, opSrc] at this ⊢
        exact this
      · split
        · simp only [List.length_cons] at h
          have := ih as (b :: bs) (by simp; omega)
          simp [scriptSrc, List.filterMap_cons, opSrc] at this ⊢
          exact this
        · simp only [List.length_cons] at h
          have := ih (a :: as) bs (by simp; omega)
          simp [scriptSrc, List.filterMap_cons, opSrc] at this ⊢
          exact this

theorem diffLinesF_tgt :
    ∀ fuel as bs, as.length + bs.length ≤ fuel →
      scriptTgt (diffLinesF fuel as bs) = bs := by
  intro fuel
  induction fuel with
  | zero =>
    intro as bs h
    match as, bs with
    | [], bs => simp [diffLinesF, scriptTgt_inss]
    | a :: as, [] => simpa [diffLinesF] using scriptTgt_dels (a :: as)
    | a :: as, b :: bs => simp at h
  | succ fuel ih =>
    intro as bs h
    match as, bs with
    | [], bs => simp [diffLinesF, scriptTgt_inss]
    | a :: as, [] => simpa [diffLinesF] using scriptTgt_dels (a :: as)
    | a :: as, b :: bs =>
      simp only [diffLinesF]
      split
      · rename_i hab
        simp only [List.length_cons] at h
        have := ih as bs (by omega)
        simp [scriptTgt, List.filterMap_cons, opTgt] at this ⊢
        exact ⟨hab, this⟩
      · split
        · simp only [List.length_cons] at h
          have := ih as (b :: bs) (by simp; omega)
          simp [scriptTgt, List.filterMap_cons, opTgt] at this ⊢
          exact this
        · simp only [List.length_cons] at h
          have := ih (a :: as) bs (by simp; omega)
          simp [scriptTgt, List.filterMap_cons, opTgt] at this ⊢
          exact this

theorem scriptSrc_diffLines (as bs : List Line) :
    scriptSrc (diffLines as bs) = as :=
  diffLinesF_src _ as bs (le_refl _)

theorem scriptTgt_diffLines (as bs : List Line) :
    scriptTgt (diffLines as bs) = bs :=
  diffLinesF_tgt _ as bs (le_refl _)

theorem diffLinesF_self :
    ∀ fuel as, as.length + as.length ≤ fuel →
      diffLinesF fuel as as = as.map DiffOp.keep := by
  intro fuel
  induction fuel with
  | zero =>
    intro as h
    match as with
    | [] => rfl
    | a :: as => simp at h
  | succ fuel ih =>
    intro as h
    match as with
    | [] => rfl
    | a :: as =>
      simp only [List.length_cons] at h
      simp [diffLinesF, ih as (by omega)]

theorem diffLines_self (as : List Line) :
    diffLines as as = as.map DiffOp.keep :=
  diffLinesF_self _ as (le_refl _)


/-- Does an edit operation keep its line unchanged? -/
def isKeep : DiffOp → Bool
  | .keep _ => true
  | _ => false

/-- Split off the maximal leading run of kept lines of an edit script. -/
def takeKeeps : List DiffOp → List Line × List DiffOp
  | .keep l :: s =>
    let kr := takeKeeps s
    (l :: kr.1, kr.2)
  | s => ([], s)

/-- Split off the maximal leading run of changed (non-kept) operations. -/
def takeChanges : List DiffOp → List DiffOp × List DiffOp
  | [] => ([], [])
  | op :: s =>
    if isKeep op then ([], op :: s)
    else
      let cr := takeChanges s
      (op :: cr.1, cr.2)

theorem takeKeeps_nil : takeKeeps [] = ([], []) := rfl

theorem takeKeeps_cons_keep (l : Line) (s : List DiffOp) :
    takeKeeps (.keep l :: s) = (l :: (takeKeeps s).1, (takeKeeps s).2) := rfl

theorem takeKeeps_cons_del (l : Line) (s : List DiffOp) :
    takeKeeps (.del l :: s) = ([], .del l :: s) := rfl

theorem takeKeeps_cons_ins (l : Line) (s : List DiffOp) :
    takeKeeps (.ins l :: s) = ([], .ins l :: s) := rfl

theorem takeChanges_cons (op : DiffOp) (s : List DiffOp) :
    takeChanges (op :: s) =
      if isKeep op then ([], op :: s)
      else (op :: (takeChanges s).1, (takeChanges s).2) := rfl

theorem takeKeeps_decomp (s : List DiffOp) :
    (takeKeeps s).1.map DiffOp.keep ++ (takeKeeps s).2 = s := by
  induction s with
  | nil => rfl
  | cons op s ih =>
    cases op with
    | keep l => rw [takeKeeps_cons_keep]; simpa using ih
    | del l => rw [takeKeeps_cons_del]; rfl
    | ins l => rw [takeKeeps_cons_ins]; rfl

theorem takeKeeps_head (s : List DiffOp) :
    ∀ op r, (takeKeeps s).2 = op :: r → isKeep op = false := by
  induction s with
  | nil => intro op r h; simp [takeKeeps_nil] at h
  | cons o s ih =>
    cases o with
    | keep l => rw [takeKeeps_cons_keep]; exact ih
    | del l => intro op r h; rw [takeKeeps_cons_del] at h; simp at h; rw [← h.1]; rfl
    | ins l => intro op r h; rw [takeKeeps_cons_ins] at h; simp at h; rw [← h.1]; rfl

theorem takeKeeps_len (s : List DiffOp) :
    (takeKeeps s).1.length + (takeKeeps s).2.length = s.length := by
  conv_rhs => rw [← takeKeeps_decomp s]
  simp

theorem takeChanges_decomp (s : List DiffOp) :
    (takeChanges s).1 ++ (takeChanges s).2 = s := by
  induction s with
  | nil => rfl
  | cons op s ih =>
    rw [takeChanges_cons]
    split
    · rfl
    · simpa using ih

theorem takeChanges_head (s : List DiffOp) :
    ∀ op r, (takeChanges s).2 = op :: r → isKeep op = true := by
  induction s with
  | nil => intro op r h; simp [takeChanges] at h
  | cons o s ih =>
    rw [takeChanges_cons]
    split
    · rename_i hk
      intro op r h
      simp at h
      rw [← h.1]; exact hk
    · exact ih

theorem takeChanges_len (s : List DiffOp) :
    (takeChanges s).1.length + (takeChanges s).2.length = s.length := by
  conv_rhs => rw [← takeChanges_decomp s]
  simp

theorem takeChanges_fst_ne_nil (op : DiffOp) (s : List DiffOp)
    (h : isKeep op = false) : (takeChanges (op :: s)).1 ≠ [] := by
  rw [takeChanges_cons, if_neg (by simp [h])]
  simp

/-- Modelled from the spec: collect one hunk body starting at a change run.
Successive change runs separated by at most `2*C` kept lines are merged into
the same hunk (their separating kept lines become in-hunk context); a longer
run of kept lines, or the end of the script, ends the hunk.  Fuel-indexed;
fuel equal to the script length always suffices. -/
def takeBodyF (C : Nat) : Nat → List DiffOp → List DiffOp × List DiffOp
  | _, [] => ([], [])
  | 0, s@(_ :: _) => ([], s)
  | fuel + 1, s@(_ :: _) =>
    let cr := takeChanges s
    let kr := takeKeeps cr.2
    match kr.2 with
    | [] => (cr.1, cr.2)
    | _ :: _ =>
      if kr.1.length ≤ 2 * C then
        let br := takeBodyF C fuel kr.2
        (cr.1 ++ kr.1.map .keep ++ br.1, br.2)
      else (cr.1, cr.2)

theorem takeBodyF_nil (C fuel : Nat) : takeBodyF C fuel [] = ([], []) := by
  cases fuel <;> rfl

theorem takeBodyF_succ (C fuel : Nat) (op : DiffOp) (s : List DiffOp) :
    takeBodyF C (fuel + 1) (op :: s) =
      match (takeKeeps (takeChanges (op :: s)).2).2 with
      | [] => ((takeChanges (op :: s)).1, (takeChanges (op :: s)).2)
      | _ :: _ =>
        if (takeKeeps (takeChanges (op :: s)).2).1.length ≤ 2 * C then
          ((takeChanges (op :: s)).1
              ++ (takeKeeps (takeChanges (op :: s)).2).1.map .keep
              ++ (takeBodyF C fuel (takeKeeps (takeChanges (op :: s)).2).2).1,
            (takeBodyF C fuel (takeKeeps (takeChanges (op :: s)).2).2).2)
        else ((takeChanges (op :: s)).1, (takeChanges (op :: s)).2) := rfl

/-- Before the recursive call of `takeBodyF`, at least one operation of the
script has been consumed by the change run or the kept run. -/
theorem takeBodyF_consume (op : DiffOp) (s : List DiffOp) :
    1 ≤ (takeChanges (op :: s)).1.length + (takeKeeps (takeChanges (op :: s)).2).1.length := by
  by_cases hop : isKeep op = true
  · have hc : takeChanges (op :: s) = ([], op :: s) := by
      rw [takeChanges_cons, if_pos hop]
    rw [hc]
    cases op with
    | keep l => rw [takeKeeps_cons_keep]; simp
    | del l => simp [isKeep] at hop
    | ins l => simp [isKeep] at hop
  · have hne := takeChanges_fst_ne_nil op s (by simpa using hop)
    cases hcc : (takeChanges (op :: s)).1 with
    | nil => exact absurd hcc hne
    | cons _ _ => simp; omega

theorem takeBodyF_decomp (C : Nat) :
    ∀ fuel s, (takeBodyF C fuel s).1 ++ (takeBodyF C fuel s).2 = s := by
  intro fuel
  induction fuel with
  | zero =>
    intro s
    cases s with
    | nil => rfl
    | cons op s => rfl
  | succ fuel ih =>
    intro s
    cases s with
    | nil => rfl
    | cons op s =>
      rw [takeBodyF_succ]
      cases hkr : (takeKeeps (takeChanges (op :: s)).2).2 with
      | nil =>
        simp only
        exact takeChanges_decomp (op :: s)
      | cons o2 r2 =>
        simp only
        split
        · have h1 := takeChanges_decomp (op :: s)
          have h2 := takeKeeps_decomp (takeChanges (op :: s)).2
          rw [hkr] at h2
          have h3 := ih (o2 :: r2)
          calc (takeChanges (op :: s)).1
                ++ (takeKeeps (takeChanges (op :: s)).2).1.map DiffOp.keep
                ++ (takeBodyF C fuel (o2 :: r2)).1
                ++ (takeBodyF C fuel (o2 :: r2)).2
              = (takeChanges (op :: s)).1
                ++ ((takeKeeps (takeChanges (op :: s)).2).1.map DiffOp.keep
                  ++ ((takeBodyF C fuel (o2 :: r2)).1 ++ (takeBodyF C fuel (o2 :: r2)).2)) := by
                simp [List.append_assoc]
            _ = op :: s := by rw [h3, h2, h1]
        · exact takeChanges_decomp (op :: s)

theorem takeBodyF_fst_ne_nil (C : Nat) (fuel : Nat) (op : DiffOp) (s : List DiffOp)
    (hop : isKeep op = false) (hfuel : 1 ≤ fuel) :
    (takeBodyF C fuel (op :: s)).1 ≠ [] := by
  match fuel, hfuel with
  | fuel + 1, _ =>
    rw [takeBodyF_succ]
    have hne := takeChanges_fst_ne_nil op s hop
    cases hkr : (takeKeeps (takeChanges (op :: s)).2).2 with
    | nil => simpa using hne
    | cons o2 r2 =>
      simp only
      split
      · simp only [ne_eq, List.append_eq_nil]
        intro hcontra
        exact hne hcontra.1.1
      · simpa using hne

theorem takeBodyF_gap (C : Nat) :
    ∀ fuel s, s.length ≤ fuel →
      (takeKeeps (takeBodyF C fuel s).2).2 = [] ∨
        2 * C < (takeKeeps (takeBodyF C fuel s).2).1.length := by
  intro fuel
  induction fuel with
  | zero =>
    intro s h
    have : s = [] := List.length_eq_zero.1 (Nat.le_zero.1 h)
    subst this
    rw [takeBodyF_nil]
    left; rfl
  | succ fuel ih =>
    intro s h
    cases s with
    | nil => rw [takeBodyF_nil]; left; rfl
    | cons op s =>
      rw [takeBodyF_succ]
      cases hkr : (takeKeeps (takeChanges (op :: s)).2).2 with
      | nil =>
        simp only
        left
        rw [hkr]
      | cons o2 r2 =>
        simp only
        split
        · -- merged: recurse on the remainder, which is strictly shorter
          simp only
          apply ih
          have hlen1 := takeChanges_len (op :: s)
          have hlen2 := takeKeeps_len (takeChanges (op :: s)).2
          rw [hkr] at hlen2
          have hcons := takeBodyF_consume op s
          simp only [List.length_cons] at h hlen1 hlen2 ⊢
          omega
        · -- a long kept run ends the hunk; it is exactly the next kept run
          right
          show 2 * C < (takeKeeps (takeChanges (op :: s)).2).1.length
          omega

/-- The last `n` elements of a list. -/
def lastN (n : Nat) (l : List α) : List α := l.drop (l.length - n)

theorem length_lastN (n : Nat) (l : List α) :
    (lastN n l).length = min n l.length := by
  simp [lastN, List.length_drop]
  omega

theorem take_append_lastN (n : Nat) (l : List α) :
    l.take (l.length - n) ++ lastN n l = l := by
  simp [lastN, List.take_append_drop]

/-- One contiguous change region of a patch: the position of its first line in
the source and in the target text, the number of source and target lines it
covers, and its operations (context, removed and added lines in order). -/
structure Hunk where
  srcStart : Nat
  srcLen : Nat
  tgtStart : Nat
  tgtLen : Nat
  ops : List DiffOp
deriving DecidableEq, Repr

/-- An ordered sequence of hunks plus a format version tag. -/
structure Patch where
  version : Nat
  hunks : List Hunk
deriving DecidableEq, Repr

/-- Per-hunk application outcome. -/
inductive Outcome where
  | appliedExact
  | appliedWithOffset
  | appliedWithFuzzy
  | failed
deriving DecidableEq, Repr

/-- Result of applying a patch: the resulting text plus the ordered per-hunk
outcomes. -/
structure ApplyResult where
  text : String
  outcomes : List Outcome
deriving DecidableEq, Repr

/-- Parse-time failure for a malformed serialized patch. -/
inductive FormatError where
  | unterminatedLine
  | emptyInput
  | badVersion
  | missingHunkHeader
  | badHunkHeader
  | badContentLine
  | inconsistentLineCounts
  | nonMonotonicOffsets
deriving DecidableEq, Repr

/-- Modelled from the spec: the default number of context lines kept on each
side of a hunk. -/
def contextSize : Nat := 3

/-- Build one hunk from its leading context, body and trailing context, at
source position `p` and target position `q`, where `klen` kept lines precede
the body and the leading context is its last `ctxB.length` lines. -/
def mkHunk (p q klen : Nat) (ctxB : List Line) (body : List DiffOp) (ctxA : List Line) : Hunk :=
  { srcStart := p + klen - ctxB.length
    srcLen := countSrc (ctxB.map .keep ++ body ++ ctxA.map .keep)
    tgtStart := q + klen - ctxB.length
    tgtLen := countTgt (ctxB.map .keep ++ body ++ ctxA.map .keep)
    ops := ctxB.map .keep ++ body ++ ctxA.map .keep }

/-- Modelled from the spec: coalesce an edit script into hunks.  `p` and `q`
are the source and target line positions at which the remaining script starts;
each hunk takes up to `C` kept lines of leading and trailing context.
Fuel-indexed; fuel equal to the script length always suffices. -/
def buildHunksF (C : Nat) : Nat → Nat → Nat → List DiffOp → List Hunk
  | _, _, _, [] => []
  | 0, _, _, _ :: _ => []
  | fuel + 1, p, q, s@(_ :: _) =>
    let ks := takeKeeps s
    match ks.2 with
    | [] => []
    | _ :: _ =>
      let br := takeBodyF C ks.2.length ks.2
      mkHunk p q ks.1.length (lastN C ks.1) br.1 ((takeKeeps br.2).1.take C)
      :: buildHunksF C fuel (p + ks.1.length + countSrc br.1)
           (q + ks.1.length + countTgt br.1) br.2

theorem buildHunksF_nil (C fuel p q : Nat) : buildHunksF C fuel p q [] = [] := by
  cases fuel <;> rfl

theorem buildHunksF_succ (C fuel p q : Nat) (op : DiffOp) (s : List DiffOp) :
    buildHunksF C (fuel + 1) p q (op :: s) =
      match (takeKeeps (op :: s)).2 with
      | [] => []
      | _ :: _ =>
        mkHunk p q (takeKeeps (op :: s)).1.length
            (lastN C (takeKeeps (op :: s)).1)
            (takeBodyF C (takeKeeps (op :: s)).2.length (takeKeeps (op :: s)).2).1
            ((takeKeeps (takeBodyF C (takeKeeps (op :: s)).2.length (takeKeeps (op :: s)).2).2).1.take C)
          :: buildHunksF C fuel
              (p + (takeKeeps (op :: s)).1.length
                + countSrc (takeBodyF C (takeKeeps (op :: s)).2.length (takeKeeps (op :: s)).2).1)
              (q + (takeKeeps (op :: s)).1.length
                + countTgt (takeBodyF C (takeKeeps (op :: s)).2.length (takeKeeps (op :: s)).2).1)
              (takeBodyF C (takeKeeps (op :: s)).2.length (takeKeeps (op :: s)).2).2 := rfl

/-- Modelled from the spec: compute a Patch from an old and a new text.  The
texts are tokenized into newline-keeping lines, a shortest edit script is
computed, and the script is coalesced into hunks with `contextSize` lines of
context. -/
def compute (oldText newText : String) : Patch :=
  let a := splitLinesKeep oldText.data
  let b := splitLinesKeep newText.data
  let s := diffLines a b
  { version := 1, hunks := buildHunksF contextSize s.length 0 0 s }

/-- The source lines a hunk expects at its location (context plus removed). -/
def hunkSrc (h : Hunk) : List Line := scriptSrc h.ops

/-- The target lines a hunk produces at its location (context plus added). -/
def hunkTgt (h : Hunk) : List Line := scriptTgt h.ops

/-- The contiguous slice of `t` of length `len` starting at `pos`. -/
def sliceAt (t : List Line) (pos len : Nat) : List Line := (t.drop pos).take len

/-- Does `t` contain exactly the lines `src` at position `pos`? -/
def matchesAt (t : List Line) (pos : Nat) (src : List Line) : Bool :=
  decide (pos + src.length ≤ t.length) && decide (sliceAt t pos src.length = src)

/-- Replace the `srcLen` lines of `t` at `pos` by the lines `tgt`. -/
def replaceAt (t : List Line) (pos srcLen : Nat) (tgt : List Line) : List Line :=
  t.take pos ++ tgt ++ t.drop (pos + srcLen)

/-- Number of positions at which two line lists agree. -/
def matchCount : List Line → List Line → Nat
  | a :: as, b :: bs => (if a = b then 1 else 0) + matchCount as bs
  | _, _ => 0

/-- Modelled from the spec: degraded-context similarity — at least half of the
hunk's expected lines must match at the candidate position. -/
def similarEnough (t : List Line) (pos : Nat) (src : List Line) : Bool :=
  decide (pos + src.length ≤ t.length)
    && decide (src.length ≤ 2 * matchCount (sliceAt t pos src.length) src)

/-- Candidate positions around `base`, by increasing distance (searched first
at the recorded offset, then at offsets shifted by 1, 2, … up to `r`). -/
def candidates (base : Int) (r : Nat) : List Int :=
  (List.range (r + 1)).flatMap
    (fun d => if d = 0 then [base] else [base + (d : Int), base - (d : Int)])

/-- First value of `f` on a list, scanning left to right. -/
def firstSome (f : α → Option β) : List α → Option β
  | [] => none
  | a :: l =>
    match f a with
    | some b => some b
    | none => firstSome f l

/-- Modelled from the spec: search the neighborhood of `base` (radius `r`) for
a position where the hunk's expected lines occur exactly. -/
def findExact (t : List Line) (src : List Line) (base : Int) (r : Nat) : Option Nat :=
  firstSome
    (fun pos => if 0 ≤ pos ∧ matchesAt t pos.toNat src = true then some pos.toNat else none)
    (candidates base r)

/-- Modelled from the spec: search the neighborhood of `base` (radius `r`) for
a position whose lines are similar enough to the hunk's expected lines. -/
def findFuzzy (t : List Line) (src : List Line) (base : Int) (r : Nat) : Option Nat :=
  firstSome
    (fun pos => if 0 ≤ pos ∧ similarEnough t pos.toNat src = true then some pos.toNat else none)
    (candidates base r)

/-- Modelled from the spec: apply hunks left to right.  `shift` is the
cumulative length delta of the hunks already applied.  Each hunk is first
tried exactly at its recorded offset (adjusted by `shift`), then at shifted
offsets, then fuzzily; if no acceptable position exists the target is left
unmodified there, the outcome `failed` is recorded, and the remaining hunks
are still processed. -/
def applyHunks (r : Nat) : List Hunk → Int → List Line → List Line × List Outcome
  | [], _, t => (t, [])
  | h :: hs, shift, t =>
    let src := hunkSrc h
    let tgt := hunkTgt h
    let base : Int := (h.srcStart : Int) + shift
    match findExact t src base r with
    | some pos =>
      let res := applyHunks r hs (shift + (tgt.length : Int) - (src.length : Int))
        (replaceAt t pos src.length tgt)
      (res.1, (if (pos : Int) = base then Outcome.appliedExact else Outcome.appliedWithOffset) :: res.2)
    | none =>
      match findFuzzy t src base r with
      | some pos =>
        let res := applyHunks r hs (shift + (tgt.length : Int) - (src.length : Int))
          (replaceAt t pos src.length tgt)
        (res.1, Outcome.appliedWithFuzzy :: res.2)
      | none =>
        let res := applyHunks r hs shift t
        (res.1, Outcome.failed :: res.2)

/-- Modelled from the spec: apply a Patch to a target text, producing the
resulting text and the ordered per-hunk outcomes.  The search radius is
proportional to (here: equal to) the length of the target text. -/
def applyPatch (targetText : String) (p : Patch) : ApplyResult :=
  let tl := splitLinesKeep targetText.data
  let res := applyHunks tl.length p.hunks 0 tl
  { text := String.mk (joinLines res.1), outcomes := res.2 }

/-- Escape a line's content so it contains no newline: a backslash introduces
an escape, with `n` for a newline and a doubled backslash for itself. -/
def escapeLine : List Char → List Char
  | [] => []
  | c :: cs =>
    if c = '\n' then '\\' :: 'n' :: escapeLine cs
    else if c = '\\' then '\\' :: '\\' :: escapeLine cs
    else c :: escapeLine cs

/-- Undo `escapeLine`; fails on a dangling or unknown escape. -/
def unescapeLine : List Char → Option (List Char)
  | [] => some []
  | c :: cs =>
    if c = '\\' then
      match cs with
      | [] => none
      | d :: cs2 =>
        if d = 'n' then (unescapeLine cs2).map (fun l => '\n' :: l)
        else if d = '\\' then (unescapeLine cs2).map (fun l => '\\' :: l)
        else none
    else (unescapeLine cs).map (fun l => c :: l)

theorem unescapeLine_cons_other (c : Char) (cs : List Char) (h : ¬c = '\\') :
    unescapeLine (c :: cs) = (unescapeLine cs).map (fun l => c :: l) := by
  rw [unescapeLine.eq_def]
  simp only
  rw [if_neg h]

theorem unescapeLine_escapeLine (l : List Char) :
    unescapeLine (escapeLine l) = some l := by
  induction l with
  | nil => rfl
  | cons c cs ih =>
    simp only [escapeLine]
    by_cases h1 : c = '\n'
    · simp [h1, unescapeLine, ih]
    · by_cases h2 : c = '\\'
      · simp [h1, h2, unescapeLine, ih]
      · rw [if_neg h1, if_neg h2, unescapeLine_cons_other c _ h2, ih]
        rfl

theorem escapeLine_no_newline (l : List Char) :
    '\n' ∉ escapeLine l := by
  induction l with
  | nil => simp [escapeLine]
  | cons c cs ih =>
    simp only [escapeLine]
    by_cases h1 : c = '\n'
    · rw [if_pos h1]
      simp only [List.mem_cons]
      rintro (h | h | h)
      · exact absurd h (by decide)
      · exact absurd h (by decide)
      · exact ih h
    · by_cases h2 : c = '\\'
      · rw [if_neg h1, if_pos h2]
        simp only [List.mem_cons]
        rintro (h | h | h)
        · exact absurd h (by decide)
        · exact absurd h (by decide)
        · exact ih h
      · rw [if_neg h1, if_neg h2]
        simp only [List.mem_cons]
        rintro (h | h)
        · exact h1 h.symm
        · exact ih h

/-- The decimal digit character for `d < 10`. -/
def digitChar (d : Nat) : Char := Char.ofNat (48 + d)

/-- Fuel-indexed decimal rendering of a natural number (most significant digit
first); fuel greater than the number always suffices. -/
def natDigitsF : Nat → Nat → List Char
  | 0, _ => []
  | fuel + 1, n =>
    if n < 10 then [digitChar n]
    else natDigitsF fuel (n / 10) ++ [digitChar (n % 10)]

/-- Decimal rendering of a natural number. -/
def natDigits (n : Nat) : List Char := natDigitsF (n + 1) n

/-- The value of a decimal digit character, if it is one. -/
def charDigit? (c : Char) : Option Nat :=
  if 48 ≤ c.toNat ∧ c.toNat ≤ 57 then some (c.toNat - 48) else none

/-- Accumulating decimal parser; fails on any non-digit character. -/
def parseNatAux : Nat → List Char → Option Nat
  | acc, [] => some acc
  | acc, c :: cs =>
    match charDigit? c with
    | some d => parseNatAux (acc * 10 + d) cs
    | none => none

/-- Parse a nonempty all-digit character list as a decimal number. -/
def parseNat : List Char → Option Nat
  | [] => none
  | c :: cs => parseNatAux 0 (c :: cs)

theorem charDigit?_digitChar (d : Nat) (h : d < 10) :
    charDigit? (digitChar d) = some d := by
  interval_cases d <;> decide

theorem digitChar_digit_range (d : Nat) (h : d < 10) :
    48 ≤ (digitChar d).toNat ∧ (digitChar d).toNat ≤ 57 := by
  interval_cases d <;> decide

theorem parseNatAux_append (xs ys : List Char) :
    ∀ acc, parseNatAux acc (xs ++ ys) =
      match parseNatAux acc xs with
      | some a => parseNatAux a ys
      | none => none := by
  induction xs with
  | nil => intro acc; rfl
  | cons c cs ih =>
    intro acc
    simp only [List.cons_append, parseNatAux]
    cases charDigit? c with
    | some d => exact ih (acc * 10 + d)
    | none => rfl

theorem natDigitsF_digits :
    ∀ fuel n, n < fuel → ∀ c ∈ natDigitsF fuel n, 48 ≤ c.toNat ∧ c.toNat ≤ 57 := by
  intro fuel
  induction fuel with
  | zero => intro n h; omega
  | succ fuel ih =>
    intro n h c hc
    simp only [natDigitsF] at hc
    split at hc
    · simp at hc
      subst hc
      exact digitChar_digit_range n (by omega)
    · rename_i h10
      simp at hc
      rcases hc with hc | hc
      · have hdiv : n / 10 < fuel := by
          have := Nat.div_lt_self (by omega : 0 < n) (by omega : 1 < 10)
          omega
        exact ih (n / 10) hdiv c hc
      · subst hc
        exact digitChar_digit_range (n % 10) (Nat.mod_lt n (by omega))

theorem parseNatAux_natDigitsF :
    ∀ fuel n acc, n < fuel →
      parseNatAux acc (natDigitsF fuel n)
        = some (acc * 10 ^ (natDigitsF fuel n).length + n) := by
  intro fuel
  induction fuel with
  | zero => intro n acc h; omega
  | succ fuel ih =>
    intro n acc h
    simp only [natDigitsF]
    split
    · rename_i h10
      simp only [parseNatAux, charDigit?_digitChar n h10]
      norm_num
    · rename_i h10
      simp only [not_lt] at h10
      have hdiv : n / 10 < fuel := by
        have := Nat.div_lt_self (by omega : 0 < n) (by omega : 1 < 10)
        omega
      rw [parseNatAux_append]
      rw [ih (n / 10) acc hdiv]
      simp only [parseNatAux, charDigit?_digitChar (n % 10) (Nat.mod_lt n (by omega))]
      have hmod := Nat.div_add_mod n 10
      simp [List.length_append, pow_succ]
      ring_nf
      omega

theorem natDigitsF_ne_nil (fuel n : Nat) (h : n < fuel) :
    natDigitsF fuel n ≠ [] := by
  cases fuel with
  | zero => omega
  | succ fuel =>
    simp only [natDigitsF]
    split
    · simp
    · simp

theorem parseNat_natDigits (n : Nat) : parseNat (natDigits n) = some n := by
  have hne := natDigitsF_ne_nil (n + 1) n (by omega)
  unfold natDigits at *
  cases hd : natDigitsF (n + 1) n with
  | nil => exact absurd hd hne
  | cons c cs =>
    have := parseNatAux_natDigitsF (n + 1) n 0 (by omega)
    rw [hd] at this
    simpa [parseNat] using this

theorem natDigits_digits (n : Nat) :
    ∀ c ∈ natDigits n, 48 ≤ c.toNat ∧ c.toNat ≤ 57 :=
  natDigitsF_digits (n + 1) n (by omega)

/-- Split a character list on spaces (for parsing hunk headers). -/
def splitSp : List Char → List (List Char)
  | [] => [[]]
  | c :: cs =>
    if c = ' ' then [] :: splitSp cs
    else
      match splitSp cs with
      | [] => [[c]]
      | l :: ls => (c :: l) :: ls

theorem splitSp_no_space (l : List Char) (h : ' ' ∉ l) : splitSp l = [l] := by
  induction l with
  | nil => rfl
  | cons c cs ih =>
    simp only [List.mem_cons] at h
    push_neg at h
    simp only [splitSp]
    rw [if_neg (fun hc => h.1 hc.symm)]
    rw [ih h.2]

theorem splitSp_append (l rest : List Char) (h : ' ' ∉ l) :
    splitSp (l ++ ' ' :: rest) = l :: splitSp rest := by
  induction l with
  | nil => simp [splitSp]
  | cons c cs ih =>
    simp only [List.mem_cons] at h
    push_neg at h
    simp only [List.cons_append, splitSp]
    rw [if_neg (fun hc => h.1 hc.symm)]
    simp only [List.append_eq]
    rw [ih h.2]

/-- Render physical lines: each line is followed by a newline terminator. -/
def renderLines : List (List Char) → List Char
  | [] => []
  | l :: ls => l ++ '\n' :: renderLines ls

/-- Split a character stream into physical lines, each of which must be
terminated by a newline; fails on an unterminated final line. -/
def splitPhys : List Char → Option (List (List Char))
  | [] => some []
  | c :: cs =>
    if c = '\n' then (splitPhys cs).map (fun ls => [] :: ls)
    else
      match splitPhys cs with
      | some [] => none
      | some (l :: ls) => some ((c :: l) :: ls)
      | none => none

theorem splitPhys_cons_other (c : Char) (cs : List Char) (h : ¬c = '\n') :
    splitPhys (c :: cs) =
      match splitPhys cs with
      | some [] => none
      | some (l :: ls) => some ((c :: l) :: ls)
      | none => none := by
  rw [splitPhys.eq_def]
  simp only
  rw [if_neg h]

theorem splitPhys_line (l : List Char) (rest : List Char) (h : '\n' ∉ l) :
    splitPhys (l ++ '\n' :: rest) = (splitPhys rest).map (fun ls => l :: ls) := by
  induction l with
  | nil => simp [splitPhys]
  | cons c cs ih =>
    simp only [List.mem_cons] at h
    push_neg at h
    rw [List.cons_append, splitPhys_cons_other c _ (fun hc => h.1 hc.symm)]
    rw [ih h.2]
    cases splitPhys rest with
    | none => rfl
    | some ls => rfl

theorem splitPhys_renderLines (L : List (List Char)) (h : ∀ l ∈ L, '\n' ∉ l) :
    splitPhys (renderLines L) = some L := by
  induction L with
  | nil => rfl
  | cons l ls ih =>
    simp only [renderLines]
    rw [splitPhys_line l _ (h l (by simp))]
    rw [ih (fun x hx => h x (by simp [hx]))]
    rfl

/-- Serialized form of one edit operation: a marker character (space for
context, minus for removed, plus for added) followed by the escaped line. -/
def opLine : DiffOp → List Char
  | .keep l => ' ' :: escapeLine l
  | .del l => '-' :: escapeLine l
  | .ins l => '+' :: escapeLine l

/-- Serialized lines of one hunk: a header line holding the four offsets and
lengths, then one line per operation. -/
def serializeHunk (h : Hunk) : List (List Char) :=
  ('#' :: (natDigits h.srcStart ++ ' ' :: natDigits h.srcLen
    ++ ' ' :: natDigits h.tgtStart ++ ' ' :: natDigits h.tgtLen))
  :: h.ops.map opLine

/-- Serialized lines of a hunk sequence. -/
def hunkLines : List Hunk → List (List Char)
  | [] => []
  | h :: hs => serializeHunk h ++ hunkLines hs

/-- Modelled from the spec: serialize a Patch into a stable text format — a
version line, then for each hunk a header line with
(source-start, source-length, target-start, target-length) followed by its
content lines prefixed by space, minus or plus. -/
def serialize (p : Patch) : String :=
  String.mk (renderLines (('v' :: natDigits p.version) :: hunkLines p.hunks))

/-- Is this physical line a hunk header line? -/
def isHeaderLine : List Char → Bool
  | [] => false
  | c :: _ => c = '#'

/-- Parse a hunk header line into its four numbers. -/
def parseHeader (l : List Char) : Option (Nat × Nat × Nat × Nat) :=
  match l with
  | [] => none
  | c :: rest =>
    if c = '#' then
      match splitSp rest with
      | [pa, pb, pc, pd] =>
        match parseNat pa, parseNat pb, parseNat pc, parseNat pd with
        | some a, some b, some c2, some d => some (a, b, c2, d)
        | _, _, _, _ => none
      | _ => none
    else none

/-- Parse one content line into an edit operation. -/
def parseOpLine (l : List Char) : Except FormatError DiffOp :=
  match l with
  | [] => .error .badContentLine
  | c :: rest =>
    match unescapeLine rest with
    | none => .error .badContentLine
    | some content =>
      if c = ' ' then .ok (.keep content)
      else if c = '-' then .ok (.del content)
      else if c = '+' then .ok (.ins content)
      else .error .badContentLine

/-- Parse a block of content lines. -/
def parseOps : List (List Char) → Except FormatError (List DiffOp)
  | [] => .ok []
  | l :: ls =>
    match parseOpLine l, parseOps ls with
    | .ok op, .ok ops => .ok (op :: ops)
    | .error e, _ => .error e
    | _, .error e => .error e

/-- Modelled from the spec: parse hunk blocks — each block is a header line
followed by its content lines; a content line before any header is a missing
hunk header; a header whose recorded line counts disagree with its content
lines is an inconsistent-line-counts error.  Fuel-indexed; fuel equal to the
number of lines always suffices. -/
def parseHunksF : Nat → List (List Char) → Except FormatError (List Hunk)
  | _, [] => .ok []
  | 0, _ :: _ => .error .missingHunkHeader
  | fuel + 1, l :: rest =>
    if isHeaderLine l then
      match parseHeader l with
      | none => .error .badHunkHeader
      | some (a, b, c, d) =>
        match parseOps (rest.takeWhile (fun x => !isHeaderLine x)) with
        | .error e => .error e
        | .ok ops =>
          if b = countSrc ops ∧ d = countTgt ops then
            match parseHunksF fuel (rest.dropWhile (fun x => !isHeaderLine x)) with
            | .error e => .error e
            | .ok hs => .ok ({ srcStart := a, srcLen := b, tgtStart := c, tgtLen := d, ops := ops } :: hs)
          else .error .inconsistentLineCounts
    else .error .missingHunkHeader

/-- Do the recorded line counts of every hunk agree with its operations? -/
def countsOkB : List Hunk → Bool
  | [] => true
  | h :: hs =>
    decide (h.srcLen = countSrc h.ops ∧ h.tgtLen = countTgt h.ops) && countsOkB hs

/-- Are the hunks ordered by ascending source offset without overlap? -/
def monotonicB : List Hunk → Bool
  | h1 :: h2 :: hs => decide (h1.srcStart + h1.srcLen ≤ h2.srcStart) && monotonicB (h2 :: hs)
  | _ => true

/-- Parse the leading version line. -/
def parseVersionLine (l : List Char) : Except FormatError Nat :=
  match l with
  | [] => .error .badVersion
  | c :: rest =>
    if c = 'v' then
      match parseNat rest with
      | some v => .ok v
      | none => .error .badVersion
    else .error .badVersion

/-- Modelled from the spec: parse a serialized patch.  Structural errors
(unterminated line, missing or malformed header, malformed content line,
inconsistent line counts, non-monotonic offsets) abort the parse with a
`FormatError`; a Patch is returned only when the whole input is well formed. -/
def deserialize (s : String) : Except FormatError Patch :=
  match splitPhys s.data with
  | none => .error .unterminatedLine
  | some [] => .error .emptyInput
  | some (vl :: rest) =>
    match parseVersionLine vl with
    | .error e => .error e
    | .ok v =>
      match parseHunksF rest.length rest with
      | .error e => .error e
      | .ok hs =>
        if countsOkB hs then
          if monotonicB hs then .ok { version := v, hunks := hs }
          else .error .nonMonotonicOffsets
        else .error .inconsistentLineCounts

/-- A list of patch strings, as built by the repository's `Transaction`
class (`src/diffs/core.py`): it stores the serialized patches value produced
by `create_patches`. -/
structure Transaction where
  patches : String
deriving DecidableEq, Repr

/-- A document section, as in the repository's `Section` class
(`src/diffs/core.py`): a section type tag plus the section text. -/
structure Section where
  section_type : String
  text : String
deriving DecidableEq, Repr

/-- The repository's `create_patches` (`src/diffs/core.py` lines 13-16):
compute the patches between two texts and return their serialized text. -/
def create_patches (text1 text2 : String) : String :=
  serialize (compute text1 text2)

/-- The repository's `apply_patches` (`src/diffs/core.py` lines 18-21): parse
a serialized patch and apply it to a text, returning the patched text.  A
parse failure is modelled as an `Except.error`, mirroring the exception the
underlying library raises on malformed input. -/
def apply_patches (text : String) (patches : String) : Except FormatError String :=
  match deserialize patches with
  | .error e => .error e
  | .ok p => .ok (applyPatch text p).text

/-- The repository's `apply_transaction` (`src/diffs/core.py` lines 23-25):
apply a transaction's patches to a section's text and return a new `Section`
with the same section type and the patched text. -/
def apply_transaction (s : Section) (t : Transaction) : Except FormatError Section :=
  match apply_patches s.text t.patches with
  | .error e => .error e
  | .ok newText => .ok { section_type := s.section_type, text := newText }

theorem firstSome_cons (f : α → Option β) (a : α) (l : List α) :
    firstSome f (a :: l) =
      match f a with
      | some b => some b
      | none => firstSome f l := rfl

theorem candidates_head (base : Int) (r : Nat) :
    ∃ rest, candidates base r = base :: rest := by
  unfold candidates
  rw [List.range_succ_eq_map]
  simp only [List.flatMap_cons, if_pos rfl]
  exact ⟨_, rfl⟩

theorem findExact_at_base (t : List Line) (src : List Line) (base : Int) (r : Nat)
    (h0 : 0 ≤ base) (hm : matchesAt t base.toNat src = true) :
    findExact t src base r = some base.toNat := by
  unfold findExact
  obtain ⟨rest, hc⟩ := candidates_head base r
  rw [hc, firstSome_cons, if_pos ⟨h0, hm⟩]

theorem matchesAt_exact (pre src suf : List Line) :
    matchesAt (pre ++ src ++ suf) pre.length src = true := by
  unfold matchesAt sliceAt
  rw [List.append_assoc, List.drop_left, List.take_left]
  simp

theorem replaceAt_exact (pre src suf tgt : List Line) :
    replaceAt (pre ++ src ++ suf) pre.length src.length tgt = pre ++ tgt ++ suf := by
  unfold replaceAt
  rw [show pre ++ src ++ suf = pre ++ (src ++ suf) from List.append_assoc pre src suf]
  rw [List.take_left]
  rw [show pre ++ (src ++ suf) = pre ++ src ++ suf from (List.append_assoc pre src suf).symm]
  rw [show pre.length + src.length = (pre ++ src).length by simp]
  rw [List.drop_left]

theorem applyHunks_nil (r : Nat) (shift : Int) (t : List Line) :
    applyHunks r [] shift t = (t, []) := rfl

theorem applyHunks_cons_exact (r : Nat) (h : Hunk) (hs : List Hunk) (shift : Int)
    (t : List Line) (pos : Nat)
    (hf : findExact t (hunkSrc h) ((h.srcStart : Int) + shift) r = some pos) :
    applyHunks r (h :: hs) shift t =
      ((applyHunks r hs (shift + ((hunkTgt h).length : Int) - ((hunkSrc h).length : Int))
          (replaceAt t pos (hunkSrc h).length (hunkTgt h))).1,
        (if (pos : Int) = (h.srcStart : Int) + shift then Outcome.appliedExact
          else Outcome.appliedWithOffset)
          :: (applyHunks r hs (shift + ((hunkTgt h).length : Int) - ((hunkSrc h).length : Int))
          (replaceAt t pos (hunkSrc h).length (hunkTgt h))).2) := by
  simp only [applyHunks, hf]

theorem applyHunks_cons_failed (r : Nat) (h : Hunk) (hs : List Hunk) (shift : Int)
    (t : List Line)
    (hf : findExact t (hunkSrc h) ((h.srcStart : Int) + shift) r = none)
    (hz : findFuzzy t (hunkSrc h) ((h.srcStart : Int) + shift) r = none) :
    applyHunks r (h :: hs) shift t =
      ((applyHunks r hs shift t).1, Outcome.failed :: (applyHunks r hs shift t).2) := by
  simp only [applyHunks, hf, hz]

theorem applyHunks_cons_exact_gen (r : Nat) (h : Hunk) (hs : List Hunk) (shift : Int)
    (t : List Line) (pos : Nat) (src tgt : List Line)
    (hsrc : hunkSrc h = src) (htgt : hunkTgt h = tgt)
    (hf : findExact t src ((h.srcStart : Int) + shift) r = some pos) :
    applyHunks r (h :: hs) shift t =
      ((applyHunks r hs (shift + (tgt.length : Int) - (src.length : Int))
          (replaceAt t pos src.length tgt)).1,
        (if (pos : Int) = (h.srcStart : Int) + shift then Outcome.appliedExact
          else Outcome.appliedWithOffset)
          :: (applyHunks r hs (shift + (tgt.length : Int) - (src.length : Int))
          (replaceAt t pos src.length tgt)).2) := by
  subst hsrc
  subst htgt
  exact applyHunks_cons_exact r h hs shift t pos hf

theorem applyHunks_buildHunksF (C r : Nat) :
    ∀ fuel s p (done : List Line),
      s.length ≤ fuel →
      applyHunks r (buildHunksF C fuel p done.length s) ((done.length : Int) - (p : Int))
          (done ++ scriptSrc s)
        = (done ++ scriptTgt s,
           List.replicate (buildHunksF C fuel p done.length s).length Outcome.appliedExact) := by
  intro fuel
  induction fuel with
  | zero =>
    intro s p done h
    have hnil : s = [] := List.length_eq_zero.1 (Nat.le_zero.1 h)
    subst hnil
    rw [buildHunksF_nil, applyHunks_nil]
    rfl
  | succ fuel ih =>
    intro s p done h
    cases s with
    | nil =>
      rw [buildHunksF_nil, applyHunks_nil]
      rfl
    | cons op s0 =>
      rw [buildHunksF_succ]
      cases hs' : (takeKeeps (op :: s0)).2 with
      | nil =>
        simp only
        rw [applyHunks_nil]
        have hdec := takeKeeps_decomp (op :: s0)
        rw [hs', List.append_nil] at hdec
        have hsrctgt : scriptSrc (op :: s0) = scriptTgt (op :: s0) := by
          rw [← hdec, scriptSrc_keeps, scriptTgt_keeps]
        rw [hsrctgt]
        rfl
      | cons o2 r2 =>
        simp only
        set K := (takeKeeps (op :: s0)).1 with hKdef
        set B := (takeBodyF C (o2 :: r2).length (o2 :: r2)).1 with hBdef
        set R := (takeBodyF C (o2 :: r2).length (o2 :: r2)).2 with hRdef
        set KR := (takeKeeps R).1 with hKRdef
        set R2 := (takeKeeps R).2 with hR2def
        set ctxB := lastN C K with hctxBdef
        set ctxA := KR.take C with hctxAdef
        -- basic decompositions
        have hko : isKeep o2 = false := takeKeeps_head (op :: s0) o2 r2 hs'
        have f1 : K.map DiffOp.keep ++ (o2 :: r2) = op :: s0 := by
          have := takeKeeps_decomp (op :: s0)
          rw [hs'] at this
          exact this
        have f2 : B ++ R = o2 :: r2 := takeBodyF_decomp C (o2 :: r2).length (o2 :: r2)
        have fBne : B ≠ [] :=
          takeBodyF_fst_ne_nil C (o2 :: r2).length o2 r2 hko (by simp)
        have f3 : KR.map DiffOp.keep ++ R2 = R := takeKeeps_decomp R
        -- length facts
        have hctxB_len : ctxB.length = min C K.length := length_lastN C K
        have hkpre : K.take (K.length - C) ++ ctxB = K := take_append_lastN C K
        have hctxA : ctxA ++ KR.drop C = KR := List.take_append_drop C KR
        -- script decompositions
        have hsrcS : scriptSrc (op :: s0) = K ++ (scriptSrc B ++ scriptSrc R) := by
          rw [← f1, scriptSrc_append, scriptSrc_keeps, ← f2, scriptSrc_append]
        have htgtS : scriptTgt (op :: s0) = K ++ (scriptTgt B ++ scriptTgt R) := by
          rw [← f1, scriptTgt_append, scriptTgt_keeps, ← f2, scriptTgt_append]
        have hsrcR : scriptSrc R = KR ++ scriptSrc R2 := by
          rw [← f3, scriptSrc_append, scriptSrc_keeps]
        have hmidS : scriptSrc (ctxB.map DiffOp.keep ++ B ++ ctxA.map DiffOp.keep)
            = ctxB ++ scriptSrc B ++ ctxA := by
          rw [scriptSrc_append, scriptSrc_append, scriptSrc_keeps, scriptSrc_keeps]
        have hmidT : scriptTgt (ctxB.map DiffOp.keep ++ B ++ ctxA.map DiffOp.keep)
            = ctxB ++ scriptTgt B ++ ctxA := by
          rw [scriptTgt_append, scriptTgt_append, scriptTgt_keeps, scriptTgt_keeps]
        -- text decomposition
        have ht : done ++ scriptSrc (op :: s0)
            = (done ++ K.take (K.length - C))
              ++ (ctxB ++ scriptSrc B ++ ctxA)
              ++ (KR.drop C ++ scriptSrc R2) := by
          rw [hsrcS, hsrcR]
          conv_lhs => rw [← hkpre]
          conv_lhs => rw [← hctxA]
          simp [List.append_assoc]
        -- base position arithmetic
        have hbase : ((p + K.length - ctxB.length : Nat) : Int)
            + ((done.length : Int) - (p : Int))
            = (((done ++ K.take (K.length - C)).length : Nat) : Int) := by
          simp only [List.length_append, List.length_take]
          omega
        -- exact match at the base position
        have htn : (((done ++ K.take (K.length - C)).length : Int)).toNat
            = (done ++ K.take (K.length - C)).length := by omega
        have hm : matchesAt
            ((done ++ K.take (K.length - C))
              ++ (ctxB ++ scriptSrc B ++ ctxA)
              ++ (KR.drop C ++ scriptSrc R2))
            ((((done ++ K.take (K.length - C)).length : Nat) : Int)).toNat
            (ctxB ++ scriptSrc B ++ ctxA) = true := by
          rw [htn]
          exact matchesAt_exact _ _ _
        have hfe0 := findExact_at_base _ _ _ r
          (by omega : (0 : Int) ≤ (((done ++ K.take (K.length - C)).length : Nat) : Int)) hm
        rw [htn] at hfe0
        have hfe : findExact (done ++ scriptSrc (op :: s0)) (ctxB ++ scriptSrc B ++ ctxA)
            (((p + K.length - ctxB.length : Nat) : Int) + ((done.length : Int) - (p : Int))) r
            = some (done ++ K.take (K.length - C)).length := by
          rw [ht, hbase]
          exact hfe0
        -- apply the hunk
        have hsrc0 : hunkSrc (mkHunk p done.length K.length ctxB B ctxA)
            = ctxB ++ scriptSrc B ++ ctxA := hmidS
        have htgt0 : hunkTgt (mkHunk p done.length K.length ctxB B ctxA)
            = ctxB ++ scriptTgt B ++ ctxA := hmidT
        have hfeb : findExact (done ++ scriptSrc (op :: s0)) (ctxB ++ scriptSrc B ++ ctxA)
            (((mkHunk p done.length K.length ctxB B ctxA).srcStart : Int)
              + ((done.length : Int) - (p : Int))) r
            = some (done ++ K.take (K.length - C)).length := hfe
        rw [applyHunks_cons_exact_gen r (mkHunk p done.length K.length ctxB B ctxA) _ _ _
          (done ++ K.take (K.length - C)).length
          (ctxB ++ scriptSrc B ++ ctxA) (ctxB ++ scriptTgt B ++ ctxA) hsrc0 htgt0 hfeb]
        have hss : (mkHunk p done.length K.length ctxB B ctxA).srcStart
            = p + K.length - ctxB.length := rfl
        rw [hss]
        rw [if_pos hbase.symm]
        rw [ht, replaceAt_exact]
        -- the replaced text is the new prefix plus the remaining source
        have ht2 : (done ++ K.take (K.length - C))
              ++ (ctxB ++ scriptTgt B ++ ctxA)
              ++ (KR.drop C ++ scriptSrc R2)
            = (done ++ K ++ scriptTgt B) ++ scriptSrc R := by
          conv_rhs => rw [hsrcR]
          conv_rhs => rw [← hkpre]
          conv_rhs => rw [← hctxA]
          simp [List.append_assoc]
        rw [ht2]
        -- align the recursion parameters with the induction hypothesis
        have hq : done.length + K.length + countTgt B = (done ++ K ++ scriptTgt B).length := by
          simp [countTgt]
          omega
        have hshift : ((done.length : Int) - (p : Int))
              + ((ctxB ++ scriptTgt B ++ ctxA).length : Int)
              - ((ctxB ++ scriptSrc B ++ ctxA).length : Int)
            = (((done ++ K ++ scriptTgt B).length : Nat) : Int)
              - ((p + K.length + countSrc B : Nat) : Int) := by
          simp only [List.length_append, countSrc, countTgt]
          push_cast
          omega
        have hlen : R.length ≤ fuel := by
          have hk1 := takeKeeps_len (op :: s0)
          rw [hs', ← hKdef] at hk1
          have hk2 : B.length + R.length = (o2 :: r2).length := by
            rw [← List.length_append, f2]
          have hk3 : 1 ≤ B.length := by
            cases hBc : B with
            | nil => exact absurd hBc fBne
            | cons _ _ => simp
          simp only [List.length_cons] at hk1 hk2 h ⊢
          omega
        rw [hq, hshift]
        rw [ih R (p + K.length + countSrc B) (done ++ K ++ scriptTgt B) hlen]
        -- final text and outcome bookkeeping
        rw [htgtS]
        simp [List.append_assoc, List.replicate_succ]

theorem compute_hunks_eq (A B : String) :
    (compute A B).hunks
      = buildHunksF contextSize (diffLines (splitLinesKeep A.data) (splitLinesKeep B.data)).length
          0 0 (diffLines (splitLinesKeep A.data) (splitLinesKeep B.data)) := rfl

theorem applyPatch_eq (t : String) (p : Patch) :
    applyPatch t p =
      { text := String.mk (joinLines
          (applyHunks (splitLinesKeep t.data).length p.hunks 0 (splitLinesKeep t.data)).1)
        outcomes :=
          (applyHunks (splitLinesKeep t.data).length p.hunks 0 (splitLinesKeep t.data)).2 } := rfl

theorem compute_roundtrip (A B : String) :
    (applyPatch A (compute A B)).text = B ∧
      (applyPatch A (compute A B)).outcomes
        = List.replicate (compute A B).hunks.length Outcome.appliedExact := by
  have hsrc : scriptSrc (diffLines (splitLinesKeep A.data) (splitLinesKeep B.data))
      = splitLinesKeep A.data := scriptSrc_diffLines _ _
  have htgt : scriptTgt (diffLines (splitLinesKeep A.data) (splitLinesKeep B.data))
      = splitLinesKeep B.data := scriptTgt_diffLines _ _
  have hmain := applyHunks_buildHunksF contextSize (splitLinesKeep A.data).length
    (diffLines (splitLinesKeep A.data) (splitLinesKeep B.data)).length
    (diffLines (splitLinesKeep A.data) (splitLinesKeep B.data)) 0 [] (le_refl _)
  simp only [List.nil_append, List.length_nil, Nat.cast_zero, sub_zero, sub_self] at hmain
  rw [hsrc, htgt] at hmain
  rw [applyPatch_eq, compute_hunks_eq, hmain]
  constructor
  · show String.mk (joinLines (splitLinesKeep B.data)) = B
    rw [joinLines_splitLinesKeep]
  · rfl

theorem buildHunksF_of_keeps (C fuel p q : Nat) (s : List DiffOp)
    (h : (takeKeeps s).2 = []) : buildHunksF C fuel p q s = [] := by
  cases fuel with
  | zero => cases s with
    | nil => rfl
    | cons op s0 => rfl
  | succ fuel => cases s with
    | nil => rfl
    | cons op s0 =>
      rw [buildHunksF_succ, h]

theorem countsOkB_cons (h : Hunk) (hs : List Hunk) :
    countsOkB (h :: hs)
      = (decide (h.srcLen = countSrc h.ops ∧ h.tgtLen = countTgt h.ops) && countsOkB hs) := rfl

theorem countsOkB_buildHunksF (C : Nat) :
    ∀ fuel p q s, countsOkB (buildHunksF C fuel p q s) = true := by
  intro fuel
  induction fuel with
  | zero =>
    intro p q s
    cases s with
    | nil => rfl
    | cons op s0 => rfl
  | succ fuel ih =>
    intro p q s
    cases s with
    | nil => rfl
    | cons op s0 =>
      rw [buildHunksF_succ]
      cases hs' : (takeKeeps (op :: s0)).2 with
      | nil => rfl
      | cons o2 r2 =>
        simp only
        rw [countsOkB_cons]
        rw [ih]
        simp [mkHunk]

theorem buildHunksF_head_srcStart (C : Nat) :
    ∀ fuel p q s h hs, buildHunksF C fuel p q s = h :: hs →
      h.srcStart = p + (takeKeeps s).1.length - min C (takeKeeps s).1.length := by
  intro fuel p q s h hs hb
  cases fuel with
  | zero =>
    cases s with
    | nil => rw [buildHunksF_nil] at hb; exact absurd hb (by simp)
    | cons op s0 => exact absurd hb (by simp [buildHunksF])
  | succ fuel =>
    cases s with
    | nil => rw [buildHunksF_nil] at hb; exact absurd hb (by simp)
    | cons op s0 =>
      rw [buildHunksF_succ] at hb
      cases hs' : (takeKeeps (op :: s0)).2 with
      | nil =>
        rw [hs'] at hb
        exact absurd hb (by simp)
      | cons o2 r2 =>
        rw [hs'] at hb
        simp only at hb
        injection hb with hh htail
        rw [← hh]
        show p + (takeKeeps (op :: s0)).1.length - (lastN C (takeKeeps (op :: s0)).1).length
          = p + (takeKeeps (op :: s0)).1.length - min C (takeKeeps (op :: s0)).1.length
        rw [length_lastN]

theorem buildHunksF_ne_nil_parts (C fuel p q : Nat) (s : List DiffOp)
    (h : buildHunksF C fuel p q s ≠ []) : (takeKeeps s).2 ≠ [] := by
  intro hcontra
  exact h (buildHunksF_of_keeps C fuel p q s hcontra)

theorem monotonicB_cons2 (h1 h2 : Hunk) (hs : List Hunk) :
    monotonicB (h1 :: h2 :: hs)
      = (decide (h1.srcStart + h1.srcLen ≤ h2.srcStart) && monotonicB (h2 :: hs)) := rfl

theorem length_scriptSrc_mid (ctxB : List Line) (B : List DiffOp) (ctxA : List Line) :
    countSrc (ctxB.map DiffOp.keep ++ B ++ ctxA.map DiffOp.keep)
      = ctxB.length + countSrc B + ctxA.length := by
  unfold countSrc
  rw [scriptSrc_append, scriptSrc_append, scriptSrc_keeps, scriptSrc_keeps]
  simp [Nat.add_assoc]

theorem monotonicB_buildHunksF (C : Nat) :
    ∀ fuel p q s, s.length ≤ fuel → monotonicB (buildHunksF C fuel p q s) = true := by
  intro fuel
  induction fuel with
  | zero =>
    intro p q s h
    have : s = [] := List.length_eq_zero.1 (Nat.le_zero.1 h)
    subst this
    rfl
  | succ fuel ih =>
    intro p q s h
    cases s with
    | nil => rfl
    | cons op s0 =>
      rw [buildHunksF_succ]
      cases hs' : (takeKeeps (op :: s0)).2 with
      | nil => rfl
      | cons o2 r2 =>
        simp only
        -- the recursive tail
        cases hrec : buildHunksF C fuel
            (p + (takeKeeps (op :: s0)).1.length
              + countSrc (takeBodyF C (o2 :: r2).length (o2 :: r2)).1)
            (q + (takeKeeps (op :: s0)).1.length
              + countTgt (takeBodyF C (o2 :: r2).length (o2 :: r2)).1)
            (takeBodyF C (o2 :: r2).length (o2 :: r2)).2 with
        | nil => rfl
        | cons h2 hs2 =>
          rw [monotonicB_cons2]
          have hlen : (takeBodyF C (o2 :: r2).length (o2 :: r2)).2.length ≤ fuel := by
            have hk1 := takeKeeps_len (op :: s0)
            rw [hs'] at hk1
            have hk2 := takeBodyF_decomp C (o2 :: r2).length (o2 :: r2)
            have hk2l : (takeBodyF C (o2 :: r2).length (o2 :: r2)).1.length
                + (takeBodyF C (o2 :: r2).length (o2 :: r2)).2.length = (o2 :: r2).length := by
              rw [← List.length_append, hk2]
            have hko : isKeep o2 = false := takeKeeps_head (op :: s0) o2 r2 hs'
            have hbne := takeBodyF_fst_ne_nil C (o2 :: r2).length o2 r2 hko (by simp)
            have hb1 : 1 ≤ (takeBodyF C (o2 :: r2).length (o2 :: r2)).1.length := by
              cases hbb : (takeBodyF C (o2 :: r2).length (o2 :: r2)).1 with
              | nil => exact absurd hbb hbne
              | cons _ _ => simp
            have e1 : (op :: s0).length = s0.length + 1 := rfl
            have e2 : (o2 :: r2).length = r2.length + 1 := rfl
            omega
          have hmono2 := ih
            (p + (takeKeeps (op :: s0)).1.length
              + countSrc (takeBodyF C (o2 :: r2).length (o2 :: r2)).1)
            (q + (takeKeeps (op :: s0)).1.length
              + countTgt (takeBodyF C (o2 :: r2).length (o2 :: r2)).1)
            (takeBodyF C (o2 :: r2).length (o2 :: r2)).2 hlen
          rw [hrec] at hmono2
          rw [hmono2]
          -- head offsets
          have hhead := buildHunksF_head_srcStart C fuel _ _ _ h2 hs2 hrec
          have hgap := takeBodyF_gap C (o2 :: r2).length (o2 :: r2) (le_refl _)
          have hr2ne : (takeKeeps (takeBodyF C (o2 :: r2).length (o2 :: r2)).2).2 ≠ [] := by
            apply buildHunksF_ne_nil_parts C fuel _ _ _
            rw [hrec]
            simp
          have hkr : 2 * C < (takeKeeps (takeBodyF C (o2 :: r2).length (o2 :: r2)).2).1.length := by
            rcases hgap with hgap | hgap
            · exact absurd hgap hr2ne
            · exact hgap
          have hsl : (mkHunk p q (takeKeeps (op :: s0)).1.length
              (lastN C (takeKeeps (op :: s0)).1)
              (takeBodyF C (o2 :: r2).length (o2 :: r2)).1
              ((takeKeeps (takeBodyF C (o2 :: r2).length (o2 :: r2)).2).1.take C)).srcLen
              = (lastN C (takeKeeps (op :: s0)).1).length
                + countSrc (takeBodyF C (o2 :: r2).length (o2 :: r2)).1
                + ((takeKeeps (takeBodyF C (o2 :: r2).length (o2 :: r2)).2).1.take C).length :=
            length_scriptSrc_mid _ _ _
          have hss : (mkHunk p q (takeKeeps (op :: s0)).1.length
              (lastN C (takeKeeps (op :: s0)).1)
              (takeBodyF C (o2 :: r2).length (o2 :: r2)).1
              ((takeKeeps (takeBodyF C (o2 :: r2).length (o2 :: r2)).2).1.take C)).srcStart
              = p + (takeKeeps (op :: s0)).1.length
                - (lastN C (takeKeeps (op :: s0)).1).length := rfl
          simp only [Bool.and_eq_true, decide_eq_true_eq]
          refine ⟨?_, trivial⟩
          have hminKR : min C ((takeKeeps (takeBodyF C (o2 :: r2).length (o2 :: r2)).2).1.length)
              = C := min_eq_left (by omega)
          rw [hminKR] at hhead
          have hl2 : ((takeKeeps (takeBodyF C (o2 :: r2).length (o2 :: r2)).2).1.take C).length
              = C := by
            rw [List.length_take]
            exact hminKR
          have hle : (lastN C (takeKeeps (op :: s0)).1).length
              ≤ (takeKeeps (op :: s0)).1.length := by
            rw [length_lastN]
            exact min_le_right _ _
          rw [hss, hsl, hhead, hl2]
          omega

theorem nl_not_in_digits (n : Nat) : '\n' ∉ natDigits n := by
  intro h
  have hr := natDigits_digits n '\n' h
  have h10 : ('\n').toNat = 10 := by decide
  omega

theorem sp_not_in_digits (n : Nat) : ' ' ∉ natDigits n := by
  intro h
  have hr := natDigits_digits n ' ' h
  have h32 : (' ').toNat = 32 := by decide
  omega

theorem nl_not_in_header_parts (A B C D : List Char)
    (hA : '\n' ∉ A) (hB : '\n' ∉ B) (hC : '\n' ∉ C) (hD : '\n' ∉ D) :
    '\n' ∉ ('#' :: (A ++ ' ' :: B ++ ' ' :: C ++ ' ' :: D)) := by
  intro hmem
  simp only [List.mem_cons, List.mem_append] at hmem
  rcases hmem with hc | ((hc | hc | hc) | hc | hc) | hc | hc
  · exact absurd hc (by decide)
  · exact hA hc
  · exact absurd hc (by decide)
  · exact hB hc
  · exact absurd hc (by decide)
  · exact hC hc
  · exact absurd hc (by decide)
  · exact hD hc

theorem nl_not_in_opLine (op : DiffOp) : '\n' ∉ opLine op := by
  cases op with
  | keep l =>
    simp only [opLine, List.mem_cons]
    rintro (hc | hc)
    · exact absurd hc (by decide)
    · exact escapeLine_no_newline l hc
  | del l =>
    simp only [opLine, List.mem_cons]
    rintro (hc | hc)
    · exact absurd hc (by decide)
    · exact escapeLine_no_newline l hc
  | ins l =>
    simp only [opLine, List.mem_cons]
    rintro (hc | hc)
    · exact absurd hc (by decide)
    · exact escapeLine_no_newline l hc

theorem nl_not_in_hunkLines (hs : List Hunk) :
    ∀ l ∈ hunkLines hs, '\n' ∉ l := by
  induction hs with
  | nil => intro l hl; simp [hunkLines] at hl
  | cons h hs ih =>
    intro l hl
    simp only [hunkLines, List.mem_append] at hl
    rcases hl with hl | hl
    · simp only [serializeHunk, List.mem_cons] at hl
      rcases hl with hl | hl
      · subst hl
        exact nl_not_in_header_parts _ _ _ _ (nl_not_in_digits _) (nl_not_in_digits _)
          (nl_not_in_digits _) (nl_not_in_digits _)
      · obtain ⟨op, _, hop⟩ := List.mem_map.1 hl
        subst hop
        exact nl_not_in_opLine op
    · exact ih l hl

theorem nl_not_in_version (v : Nat) : '\n' ∉ ('v' :: natDigits v) := by
  simp only [List.mem_cons]
  rintro (hc | hc)
  · exact absurd hc (by decide)
  · exact nl_not_in_digits v hc

theorem parseVersionLine_roundtrip (v : Nat) :
    parseVersionLine ('v' :: natDigits v) = .ok v := by
  simp [parseVersionLine, parseNat_natDigits]

theorem parseHeader_roundtrip (a b c d : Nat) :
    parseHeader ('#' :: (natDigits a ++ ' ' :: natDigits b
      ++ ' ' :: natDigits c ++ ' ' :: natDigits d)) = some (a, b, c, d) := by
  simp only [parseHeader, if_pos rfl]
  have hsplit : splitSp (natDigits a ++ ' ' :: (natDigits b
      ++ ' ' :: (natDigits c ++ ' ' :: natDigits d)))
      = [natDigits a, natDigits b, natDigits c, natDigits d] := by
    rw [splitSp_append _ _ (sp_not_in_digits a)]
    rw [splitSp_append _ _ (sp_not_in_digits b)]
    rw [splitSp_append _ _ (sp_not_in_digits c)]
    rw [splitSp_no_space _ (sp_not_in_digits d)]
  rw [show natDigits a ++ ' ' :: natDigits b ++ ' ' :: natDigits c ++ ' ' :: natDigits d
      = natDigits a ++ ' ' :: (natDigits b ++ ' ' :: (natDigits c ++ ' ' :: natDigits d)) by
    simp [List.append_assoc]]
  rw [hsplit]
  simp [parseNat_natDigits]

theorem parseOpLine_roundtrip (op : DiffOp) :
    parseOpLine (opLine op) = .ok op := by
  cases op with
  | keep l => simp [opLine, parseOpLine, unescapeLine_escapeLine]
  | del l => simp [opLine, parseOpLine, unescapeLine_escapeLine]
  | ins l => simp [opLine, parseOpLine, unescapeLine_escapeLine]

theorem parseOps_roundtrip (ops : List DiffOp) :
    parseOps (ops.map opLine) = .ok ops := by
  induction ops with
  | nil => rfl
  | cons op ops ih =>
    simp only [List.map_cons, parseOps, parseOpLine_roundtrip, ih]

theorem isHeaderLine_opLine (op : DiffOp) : isHeaderLine (opLine op) = false := by
  cases op <;> simp [opLine, isHeaderLine]

theorem isHeaderLine_serializeHunk_head (h : Hunk) :
    isHeaderLine ('#' :: (natDigits h.srcStart ++ ' ' :: natDigits h.srcLen
      ++ ' ' :: natDigits h.tgtStart ++ ' ' :: natDigits h.tgtLen)) = true := by
  simp [isHeaderLine]

theorem takeWhile_append_all (p : α → Bool) (A B : List α)
    (hA : ∀ x ∈ A, p x = true) :
    (A ++ B).takeWhile p = A ++ B.takeWhile p := by
  induction A with
  | nil => rfl
  | cons a t ih =>
    simp only [List.cons_append, List.takeWhile_cons, hA a (by simp)]
    rw [ih (fun x hx => hA x (by simp [hx]))]
    simp

theorem dropWhile_append_all (p : α → Bool) (A B : List α)
    (hA : ∀ x ∈ A, p x = true) :
    (A ++ B).dropWhile p = B.dropWhile p := by
  induction A with
  | nil => rfl
  | cons a t ih =>
    simp only [List.cons_append, List.dropWhile_cons, hA a (by simp)]
    simp only [if_true]
    exact ih (fun x hx => hA x (by simp [hx]))

theorem takeWhile_head_false (p : α → Bool) (b : α) (B : List α) (hp : p b = false) :
    (b :: B).takeWhile p = [] := by
  simp [List.takeWhile_cons, hp]

theorem dropWhile_head_false (p : α → Bool) (b : α) (B : List α) (hp : p b = false) :
    (b :: B).dropWhile p = b :: B := by
  simp [List.dropWhile_cons, hp]

theorem hunkLines_shape (hs : List Hunk) :
    hunkLines hs = [] ∨
      ∃ l rest, hunkLines hs = l :: rest ∧ isHeaderLine l = true := by
  cases hs with
  | nil => left; rfl
  | cons h t =>
    right
    exact ⟨_, _, rfl, isHeaderLine_serializeHunk_head h⟩

theorem parseHunksF_roundtrip :
    ∀ fuel hs, countsOkB hs = true → (hunkLines hs).length ≤ fuel →
      parseHunksF fuel (hunkLines hs) = .ok hs := by
  intro fuel
  induction fuel with
  | zero =>
    intro hs hc hl
    cases hs with
    | nil => rfl
    | cons h t =>
      exfalso
      have : hunkLines (h :: t)
          = ('#' :: (natDigits h.srcStart ++ ' ' :: natDigits h.srcLen
            ++ ' ' :: natDigits h.tgtStart ++ ' ' :: natDigits h.tgtLen))
            :: (h.ops.map opLine ++ hunkLines t) := rfl
      rw [this] at hl
      simp at hl
  | succ fuel ih =>
    intro hs hc hl
    cases hs with
    | nil => rfl
    | cons h t =>
      have hshape : hunkLines (h :: t)
          = ('#' :: (natDigits h.srcStart ++ ' ' :: natDigits h.srcLen
            ++ ' ' :: natDigits h.tgtStart ++ ' ' :: natDigits h.tgtLen))
            :: (h.ops.map opLine ++ hunkLines t) := rfl
      rw [hshape]
      simp only [parseHunksF]
      rw [if_pos (isHeaderLine_serializeHunk_head h)]
      rw [parseHeader_roundtrip]
      simp only
      -- the content lines of this hunk are all non-headers
      have hops : ∀ x ∈ h.ops.map opLine, (fun x => !isHeaderLine x) x = true := by
        intro x hx
        obtain ⟨op, _, hop⟩ := List.mem_map.1 hx
        subst hop
        simp [isHeaderLine_opLine]
      have htake : ((h.ops.map opLine) ++ hunkLines t).takeWhile (fun x => !isHeaderLine x)
          = h.ops.map opLine := by
        rw [takeWhile_append_all _ _ _ hops]
        rcases hunkLines_shape t with hsh | ⟨l, rest, hsh, hhd⟩
        · rw [hsh]; simp
        · rw [hsh, takeWhile_head_false _ _ _ (by simp [hhd])]
          simp
      have hdrop : ((h.ops.map opLine) ++ hunkLines t).dropWhile (fun x => !isHeaderLine x)
          = hunkLines t := by
        rw [dropWhile_append_all _ _ _ hops]
        rcases hunkLines_shape t with hsh | ⟨l, rest, hsh, hhd⟩
        · rw [hsh]; rfl
        · rw [hsh, dropWhile_head_false _ _ _ (by simp [hhd]), ← hsh]
      rw [htake, hdrop, parseOps_roundtrip]
      simp only
      -- counts check
      rw [countsOkB_cons, Bool.and_eq_true, decide_eq_true_eq] at hc
      rw [if_pos ⟨hc.1.1, hc.1.2⟩]
      -- recursion
      have hlt : (hunkLines t).length ≤ fuel := by
        rw [hshape] at hl
        simp only [List.length_cons, List.length_append] at hl
        omega
      rw [ih t hc.2 hlt]

theorem deserialize_serialize (p : Patch) (hc : countsOkB p.hunks = true)
    (hm : monotonicB p.hunks = true) : deserialize (serialize p) = .ok p := by
  unfold serialize deserialize
  rw [show (String.mk (renderLines (('v' :: natDigits p.version) :: hunkLines p.hunks))).data
      = renderLines (('v' :: natDigits p.version) :: hunkLines p.hunks) from rfl]
  rw [splitPhys_renderLines _ ?nonl]
  case nonl =>
    intro l hl
    rcases List.mem_cons.1 hl with hl | hl
    · subst hl; exact nl_not_in_version p.version
    · exact nl_not_in_hunkLines p.hunks l hl
  simp only
  rw [parseVersionLine_roundtrip]
  simp only
  rw [parseHunksF_roundtrip (hunkLines p.hunks).length p.hunks hc (le_refl _)]
  simp only
  rw [if_pos hc, if_pos hm]

theorem countsOkB_compute (A B : String) : countsOkB (compute A B).hunks = true := by
  rw [compute_hunks_eq]
  exact countsOkB_buildHunksF contextSize _ 0 0 _

theorem monotonicB_compute (A B : String) : monotonicB (compute A B).hunks = true := by
  rw [compute_hunks_eq]
  exact monotonicB_buildHunksF contextSize _ 0 0 _ (le_refl _)

theorem deserialize_serialize_compute (A B : String) :
    deserialize (serialize (compute A B)) = .ok (compute A B) :=
  deserialize_serialize (compute A B) (countsOkB_compute A B) (monotonicB_compute A B)

theorem apply_patches_roundtrip (A B : String) :
    apply_patches A (create_patches A B) = .ok B := by
  unfold apply_patches create_patches
  rw [deserialize_serialize_compute]
  simp only
  rw [(compute_roundtrip A B).1]

theorem takeKeeps_all_keeps (k : List Line) :
    takeKeeps (k.map DiffOp.keep) = (k, []) := by
  induction k with
  | nil => rfl
  | cons l ls ih =>
    simp only [List.map_cons, takeKeeps_cons_keep, ih]

theorem compute_self (A : String) : compute A A = { version := 1, hunks := [] } := by
  unfold compute
  simp only [diffLines_self]
  rw [buildHunksF_of_keeps]
  rw [takeKeeps_all_keeps]

theorem applyHunks_outcomes_length (r : Nat) :
    ∀ hs (shift : Int) (t : List Line), (applyHunks r hs shift t).2.length = hs.length := by
  intro hs
  induction hs with
  | nil => intro shift t; rfl
  | cons h hs ih =>
    intro shift t
    simp only [applyHunks]
    cases findExact t (hunkSrc h) ((h.srcStart : Int) + shift) r with
    | some pos => simp [ih]
    | none =>
      cases findFuzzy t (hunkSrc h) ((h.srcStart : Int) + shift) r with
      | some pos => simp [ih]
      | none => simp [ih]

theorem applyPatch_outcomes_length (t : String) (p : Patch) :
    (applyPatch t p).outcomes.length = p.hunks.length := by
  rw [applyPatch_eq]
  exact applyHunks_outcomes_length _ p.hunks 0 _

theorem applyPatch_nil_hunks (t : String) (v : Nat) :
    applyPatch t { version := v, hunks := [] } = { text := t, outcomes := [] } := by
  rw [applyPatch_eq]
  rw [applyHunks_nil]
  simp only
  rw [joinLines_splitLinesKeep]

theorem takeKeeps_not_keep (op : DiffOp) (s : List DiffOp) (h : isKeep op = false) :
    takeKeeps (op :: s) = ([], op :: s) := by
  cases op with
  | keep l => simp [isKeep] at h
  | del l => rfl
  | ins l => rfl

theorem takeChanges_all_changes (s : List DiffOp)
    (h : ∀ op ∈ s, isKeep op = false) :
    takeChanges s = (s, []) := by
  induction s with
  | nil => rfl
  | cons op s0 ih =>
    rw [takeChanges_cons, if_neg (by simp [h op (by simp)])]
    rw [ih (fun x hx => h x (by simp [hx]))]

theorem diffLinesF_nil_left : ∀ fuel (b : List Line),
    diffLinesF fuel [] b = b.map .ins := by
  intro fuel b
  cases fuel <;> cases b <;> rfl

theorem diffLinesF_nil_right : ∀ fuel (a : Line) (as : List Line),
    diffLinesF fuel (a :: as) [] = (a :: as).map .del := by
  intro fuel a as
  cases fuel <;> rfl

theorem buildHunksF_all_changes (C : Nat) :
    ∀ fuel p q (s : List DiffOp), s ≠ [] → (∀ op ∈ s, isKeep op = false) →
      1 ≤ fuel →
      buildHunksF C fuel p q s = [mkHunk p q 0 [] s []] := by
  intro fuel p q s hne hch hfuel
  match fuel, hfuel with
  | fuel + 1, _ =>
    cases s with
    | nil => exact absurd rfl hne
    | cons op s0 =>
      rw [buildHunksF_succ]
      have hk : takeKeeps (op :: s0) = ([], op :: s0) :=
        takeKeeps_not_keep op s0 (hch op (by simp))
      rw [hk]
      simp only
      have hb : takeBodyF C (op :: s0).length (op :: s0) = (op :: s0, []) := by
        have e1 : (op :: s0).length = s0.length + 1 := rfl
        rw [e1, takeBodyF_succ]
        rw [takeChanges_all_changes (op :: s0) hch]
        simp only [takeKeeps_nil]
      rw [hb]
      simp only
      rw [takeKeeps_nil]
      simp only
      rw [buildHunksF_nil]
      have hlast : lastN C ([] : List Line) = [] := by
        unfold lastN
        simp
      rw [hlast, List.take_nil]
      rfl

theorem data_ne_nil_of_ne_empty (T : String) (h : T ≠ "") : T.data ≠ [] := by
  intro hc
  apply h
  have : T = String.mk T.data := rfl
  rw [this, hc]

theorem splitLinesKeep_ne_nil (T : String) (h : T ≠ "") :
    splitLinesKeep T.data ≠ [] := by
  intro hc
  exact data_ne_nil_of_ne_empty T h ((splitLinesKeep_eq_nil_iff T.data).1 hc)

theorem compute_empty_old_hunks (T : String) (h : T ≠ "") :
    (compute "" T).hunks = [mkHunk 0 0 0 [] ((splitLinesKeep T.data).map DiffOp.ins) []] := by
  rw [compute_hunks_eq]
  have hdata : splitLinesKeep (String.data "") = [] := rfl
  rw [hdata]
  unfold diffLines
  rw [diffLinesF_nil_left]
  apply buildHunksF_all_changes
  · simp [splitLinesKeep_ne_nil T h]
  · intro op hop
    obtain ⟨l, _, hop⟩ := List.mem_map.1 hop
    subst hop
    rfl
  · have := splitLinesKeep_ne_nil T h
    cases hsp : splitLinesKeep T.data with
    | nil => exact absurd hsp this
    | cons _ _ => simp

theorem compute_empty_new_hunks (T : String) (h : T ≠ "") :
    (compute T "").hunks = [mkHunk 0 0 0 [] ((splitLinesKeep T.data).map DiffOp.del) []] := by
  rw [compute_hunks_eq]
  have hdata : splitLinesKeep (String.data "") = [] := rfl
  rw [hdata]
  unfold diffLines
  cases hsp : splitLinesKeep T.data with
  | nil => exact absurd hsp (splitLinesKeep_ne_nil T h)
  | cons l ls =>
    rw [diffLinesF_nil_right]
    apply buildHunksF_all_changes
    · simp
    · intro op hop
      obtain ⟨x, _, hop⟩ := List.mem_map.1 hop
      subst hop
      rfl
    · simp

theorem deserialize_ok_wf (s : String) (p : Patch) (h : deserialize s = .ok p) :
    countsOkB p.hunks = true ∧ monotonicB p.hunks = true := by
  unfold deserialize at h
  cases hsp : splitPhys s.data with
  | none => rw [hsp] at h; simp at h
  | some ls =>
    rw [hsp] at h
    cases ls with
    | nil => simp at h
    | cons vl rest =>
      simp only at h
      cases hv : parseVersionLine vl with
      | error e => rw [hv] at h; simp at h
      | ok v =>
        rw [hv] at h
        simp only at h
        cases hh : parseHunksF rest.length rest with
        | error e => rw [hh] at h; simp at h
        | ok hs =>
          rw [hh] at h
          simp only at h
          by_cases hcc : countsOkB hs = true
          · rw [if_pos hcc] at h
            by_cases hmm2 : monotonicB hs = true
            · rw [if_pos hmm2] at h
              simp only [Except.ok.injEq] at h
              subst h
              exact ⟨hcc, hmm2⟩
            · rw [if_neg hmm2] at h; simp at h
          · rw [if_neg hcc] at h; simp at h

theorem apply_patches_of_error (t s : String) (e : FormatError)
    (h : deserialize s = .error e) : apply_patches t s = .error e := by
  unfold apply_patches
  rw [h]

theorem apply_transaction_of_ok (s : Section) (t : Transaction) (r : Section)
    (h : apply_transaction s t = .ok r) :
    r.section_type = s.section_type ∧ apply_patches s.text t.patches = .ok r.text := by
  unfold apply_transaction at h
  cases hap : apply_patches s.text t.patches with
  | error e => rw [hap] at h; simp at h
  | ok nt =>
    rw [hap] at h
    simp only [Except.ok.injEq] at h
    refine ⟨?_, ?_⟩
    · rw [← h]
    · rw [← h]

theorem apply_transaction_of_error (s : Section) (t : Transaction) (e : FormatError)
    (h : apply_patches s.text t.patches = .error e) :
    apply_transaction s t = .error e := by
  unfold apply_transaction
  rw [h]

theorem apply_transaction_of_ok_patches (s : Section) (t : Transaction) (nt : String)
    (h : apply_patches s.text t.patches = .ok nt) :
    apply_transaction s t = .ok { section_type := s.section_type, text := nt } := by
  unfold apply_transaction
  rw [h]

theorem mkHunk_ins_fields (L : List Line) :
    (mkHunk 0 0 0 [] (L.map DiffOp.ins) []).srcLen = 0 ∧
    hunkSrc (mkHunk 0 0 0 [] (L.map DiffOp.ins) []) = [] ∧
    (mkHunk 0 0 0 [] (L.map DiffOp.ins) []).tgtLen = L.length ∧
    hunkTgt (mkHunk 0 0 0 [] (L.map DiffOp.ins) []) = L := by
  have hsrc : hunkSrc (mkHunk 0 0 0 [] (L.map DiffOp.ins) []) = [] := by
    show scriptSrc (([] : List Line).map DiffOp.keep ++ L.map DiffOp.ins
      ++ ([] : List Line).map DiffOp.keep) = []
    rw [scriptSrc_append, scriptSrc_append]
    simp [scriptSrc_inss, scriptSrc_keeps, scriptSrc_nil]
  have htgt : hunkTgt (mkHunk 0 0 0 [] (L.map DiffOp.ins) []) = L := by
    show scriptTgt (([] : List Line).map DiffOp.keep ++ L.map DiffOp.ins
      ++ ([] : List Line).map DiffOp.keep) = L
    rw [scriptTgt_append, scriptTgt_append]
    simp [scriptTgt_inss, scriptTgt_keeps, scriptTgt_nil]
  refine ⟨?_, hsrc, ?_, htgt⟩
  · show countSrc _ = 0
    unfold countSrc
    rw [show scriptSrc (([] : List Line).map DiffOp.keep ++ L.map DiffOp.ins
      ++ ([] : List Line).map DiffOp.keep) = hunkSrc (mkHunk 0 0 0 [] (L.map DiffOp.ins) [])
      from rfl]
    rw [hsrc]
    rfl
  · show countTgt _ = L.length
    unfold countTgt
    rw [show scriptTgt (([] : List Line).map DiffOp.keep ++ L.map DiffOp.ins
      ++ ([] : List Line).map DiffOp.keep) = hunkTgt (mkHunk 0 0 0 [] (L.map DiffOp.ins) [])
      from rfl]
    rw [htgt]

theorem mkHunk_del_fields (L : List Line) :
    (mkHunk 0 0 0 [] (L.map DiffOp.del) []).tgtLen = 0 ∧
    hunkTgt (mkHunk 0 0 0 [] (L.map DiffOp.del) []) = [] ∧
    (mkHunk 0 0 0 [] (L.map DiffOp.del) []).srcLen = L.length ∧
    hunkSrc (mkHunk 0 0 0 [] (L.map DiffOp.del) []) = L := by
  have hsrc : hunkSrc (mkHunk 0 0 0 [] (L.map DiffOp.del) []) = L := by
    show scriptSrc (([] : List Line).map DiffOp.keep ++ L.map DiffOp.del
      ++ ([] : List Line).map DiffOp.keep) = L
    rw [scriptSrc_append, scriptSrc_append]
    simp [scriptSrc_dels, scriptSrc_keeps, scriptSrc_nil]
  have htgt : hunkTgt (mkHunk 0 0 0 [] (L.map DiffOp.del) []) = [] := by
    show scriptTgt (([] : List Line).map DiffOp.keep ++ L.map DiffOp.del
      ++ ([] : List Line).map DiffOp.keep) = []
    rw [scriptTgt_append, scriptTgt_append]
    simp [scriptTgt_dels, scriptTgt_keeps, scriptTgt_nil]
  refine ⟨?_, htgt, ?_, hsrc⟩
  · show countTgt _ = 0
    unfold countTgt
    rw [show scriptTgt (([] : List Line).map DiffOp.keep ++ L.map DiffOp.del
      ++ ([] : List Line).map DiffOp.keep) = hunkTgt (mkHunk 0 0 0 [] (L.map DiffOp.del) [])
      from rfl]
    rw [htgt]
    rfl
  · show countSrc _ = L.length
    unfold countSrc
    rw [show scriptSrc (([] : List Line).map DiffOp.keep ++ L.map DiffOp.del
      ++ ([] : List Line).map DiffOp.keep) = hunkSrc (mkHunk 0 0 0 [] (L.map DiffOp.del) [])
      from rfl]
    rw [hsrc]

/-- C1: for every pair of texts A and B, applying the patch produced by
`compute A B` (in the repository: `create_patches`) back to A reproduces B
exactly, byte for byte, and every hunk's outcome is applied-exact. -/
theorem claim_C1 (A B : String) :
    (applyPatch A (compute A B)).text = B ∧
    (∀ o ∈ (applyPatch A (compute A B)).outcomes, o = Outcome.appliedExact) ∧
    apply_patches A (create_patches A B) = .ok B := by
  refine ⟨(compute_roundtrip A B).1, ?_, apply_patches_roundtrip A B⟩
  intro o ho
  rw [(compute_roundtrip A B).2] at ho
  exact List.eq_of_mem_replicate ho

/-- C2: for every text A, `compute A A` yields a Patch with zero hunks, and
applying that patch to A returns A unchanged. -/
theorem claim_C2 (A : String) :
    (compute A A).hunks = [] ∧ (applyPatch A (compute A A)).text = A := by
  rw [compute_self]
  exact ⟨rfl, by rw [applyPatch_nil_hunks]⟩

/-- C3: for every Patch produced by `compute`, serialization round-trips
exactly: `deserialize (serialize p) = p`. -/
theorem claim_C3 (A B : String) :
    deserialize (serialize (compute A B)) = .ok (compute A B) :=
  deserialize_serialize_compute A B

/-- C4: for every target text and every patch, apply returns the resulting
text plus an ordered sequence of per-hunk outcomes whose length equals the
number of hunks in the patch. -/
theorem claim_C4 (t : String) (p : Patch) :
    (applyPatch t p).outcomes.length = p.hunks.length :=
  applyPatch_outcomes_length t p

/-- C5: a hunk that cannot be matched never aborts the overall apply call —
the target is left untouched at that location, `failed` is recorded, and the
remaining hunks are still processed; in particular, applying the patch
computed from the example pair to an unrelated text yields a `failed` outcome
and leaves the unrelated text byte-for-byte unchanged. -/
theorem claim_C5 :
    (∀ (r : Nat) (h : Hunk) (hs : List Hunk) (shift : Int) (t : List Line),
      findExact t (hunkSrc h) ((h.srcStart : Int) + shift) r = none →
      findFuzzy t (hunkSrc h) ((h.srcStart : Int) + shift) r = none →
      applyHunks r (h :: hs) shift t
        = ((applyHunks r hs shift t).1, Outcome.failed :: (applyHunks r hs shift t).2)) ∧
    applyPatch "qq\nrr\nss\n" (compute "aaa\nbbb\nccc\n" "aaa\nZZZ\nccc\n")
      = { text := "qq\nrr\nss\n", outcomes := [Outcome.failed] } :=
  ⟨fun r h hs shift t hf hz => applyHunks_cons_failed r h hs shift t hf hz, by decide⟩

/-- Witness for C5: a concrete hunk that matches nowhere in a concrete text is
recorded as failed and leaves the text unchanged. -/
theorem claim_C5_witness :
    applyHunks 1 [mkHunk 0 0 0 [] [DiffOp.del ['x']] []] 0 [['q']]
      = ((applyHunks 1 [] 0 [['q']]).1,
          Outcome.failed :: (applyHunks 1 [] 0 [['q']]).2) :=
  claim_C5.1 1 (mkHunk 0 0 0 [] [DiffOp.del ['x']] []) [] 0 [['q']]
    (by decide) (by decide)

/-- C6: malformed serialized patches (missing hunk header, inconsistent line
counts, non-monotonic offsets) make parsing fail with a `FormatError`; a parse
error makes `apply_patches` surface the error without applying anything, and a
successful parse only ever returns a structurally well-formed Patch. -/
theorem claim_C6 :
    deserialize "v1\n xyz\n" = .error FormatError.missingHunkHeader ∧
    deserialize "v1\n#0 5 0 1\n+x\n" = .error FormatError.inconsistentLineCounts ∧
    deserialize "v1\n#5 1 5 1\n-a\n+b\n#2 1 2 1\n-c\n+d\n"
      = .error FormatError.nonMonotonicOffsets ∧
    (∀ s p, deserialize s = .ok p → countsOkB p.hunks = true ∧ monotonicB p.hunks = true) ∧
    (∀ t s e, deserialize s = .error e → apply_patches t s = .error e) :=
  ⟨rfl, rfl, rfl, fun s p h => deserialize_ok_wf s p h,
    fun t s e h => apply_patches_of_error t s e h⟩

/-- Witness for C6: a concrete well-formed parse satisfies the structural
checks, and a concrete malformed parse propagates its error through
`apply_patches`. -/
theorem claim_C6_witness :
    (countsOkB (Patch.mk 1 []).hunks = true ∧ monotonicB (Patch.mk 1 []).hunks = true) ∧
    apply_patches "x" "v1\n xyz\n" = .error FormatError.missingHunkHeader :=
  ⟨claim_C6.2.2.2.1 "v1\n" (Patch.mk 1 []) rfl,
    claim_C6.2.2.2.2 "x" "v1\n xyz\n" FormatError.missingHunkHeader rfl⟩

/-- C7: `compute` and `apply` are deterministic pure functions of their
inputs — equal inputs give equal outputs, and (being Lean functions over
immutable values) they have no side effect on their inputs. -/
theorem claim_C7 :
    (∀ A B A2 B2 : String, A = A2 → B = B2 →
      compute A B = compute A2 B2 ∧ create_patches A B = create_patches A2 B2) ∧
    (∀ (t : String) (p : Patch) (t2 : String) (p2 : Patch), t = t2 → p = p2 →
      applyPatch t p = applyPatch t2 p2) ∧
    (∀ t s t2 s2 : String, t = t2 → s = s2 →
      apply_patches t s = apply_patches t2 s2) := by
  refine ⟨fun A B A2 B2 h1 h2 => ?_, fun t p t2 p2 h1 h2 => ?_, fun t s t2 s2 h1 h2 => ?_⟩
  · rw [h1, h2]; exact ⟨rfl, rfl⟩
  · rw [h1, h2]
  · rw [h1, h2]

/-- Witness for C7: determinism at concrete inputs. -/
theorem claim_C7_witness :
    (compute "a" "b" = compute "a" "b"
      ∧ create_patches "a" "b" = create_patches "a" "b") ∧
    applyPatch "a" (Patch.mk 1 []) = applyPatch "a" (Patch.mk 1 []) ∧
    apply_patches "a" "v1\n" = apply_patches "a" "v1\n" :=
  ⟨claim_C7.1 "a" "b" "a" "b" rfl rfl,
    claim_C7.2.1 "a" (Patch.mk 1 []) "a" (Patch.mk 1 []) rfl rfl,
    claim_C7.2.2 "a" "v1\n" "a" "v1\n" rfl rfl⟩

/-- C8: for every non-empty text T, `compute "" T` yields exactly one hunk
that is a pure insertion (no source lines, all of T's lines added), and
`compute T ""` yields exactly one hunk that is a pure deletion. -/
theorem claim_C8 (T : String) (hT : T ≠ "") :
    (compute "" T).hunks.length = 1 ∧
    (∀ h0 ∈ (compute "" T).hunks, h0.srcLen = 0 ∧ hunkSrc h0 = [] ∧
      h0.tgtLen = (splitLinesKeep T.data).length ∧ hunkTgt h0 = splitLinesKeep T.data) ∧
    (compute T "").hunks.length = 1 ∧
    (∀ h0 ∈ (compute T "").hunks, h0.tgtLen = 0 ∧ hunkTgt h0 = [] ∧
      h0.srcLen = (splitLinesKeep T.data).length ∧ hunkSrc h0 = splitLinesKeep T.data) := by
  rw [compute_empty_old_hunks T hT, compute_empty_new_hunks T hT]
  refine ⟨rfl, ?_, rfl, ?_⟩
  · intro h0 hh0
    rw [List.mem_singleton] at hh0
    subst hh0
    have hf := mkHunk_ins_fields (splitLinesKeep T.data)
    exact ⟨hf.1, hf.2.1, hf.2.2.1, hf.2.2.2⟩
  · intro h0 hh0
    rw [List.mem_singleton] at hh0
    subst hh0
    have hf := mkHunk_del_fields (splitLinesKeep T.data)
    exact ⟨hf.1, hf.2.1, hf.2.2.1, hf.2.2.2⟩

/-- Witness for C8: the degenerate cases at the concrete non-empty text "x". -/
theorem claim_C8_witness :
    ("x" : String) ≠ "" ∧
    ((compute "" "x").hunks.length = 1 ∧
      (∀ h0 ∈ (compute "" "x").hunks, h0.srcLen = 0 ∧ hunkSrc h0 = [] ∧
        h0.tgtLen = (splitLinesKeep ("x" : String).data).length ∧
        hunkTgt h0 = splitLinesKeep ("x" : String).data) ∧
      (compute "x" "").hunks.length = 1 ∧
      (∀ h0 ∈ (compute "x" "").hunks, h0.tgtLen = 0 ∧ hunkTgt h0 = [] ∧
        h0.srcLen = (splitLinesKeep ("x" : String).data).length ∧
        hunkSrc h0 = splitLinesKeep ("x" : String).data)) :=
  ⟨by decide, claim_C8 "x" (by decide)⟩

/-- C9: applying a zero-hunk patch to any text returns that text unchanged
(with an empty outcome sequence). -/
theorem claim_C9 (T : String) (v : Nat) :
    applyPatch T { version := v, hunks := [] } = { text := T, outcomes := [] } :=
  applyPatch_nil_hunks T v

/-- C10: `apply_transaction` returns a new Section with the same section type
and with text equal to the result of `apply_patches` on the section's text and
the transaction's patches, propagating a parse error unchanged; it builds a
fresh Section and leaves its inputs untouched. -/
theorem claim_C10 (s : Section) (t : Transaction) :
    (∀ r, apply_transaction s t = .ok r →
      r.section_type = s.section_type ∧ apply_patches s.text t.patches = .ok r.text) ∧
    (∀ nt, apply_patches s.text t.patches = .ok nt →
      apply_transaction s t = .ok { section_type := s.section_type, text := nt }) ∧
    (∀ e, apply_patches s.text t.patches = .error e → apply_transaction s t = .error e) :=
  ⟨fun r h => apply_transaction_of_ok s t r h,
    fun nt h => apply_transaction_of_ok_patches s t nt h,
    fun e h => apply_transaction_of_error s t e h⟩

/-- Witness for C10: a concrete transaction applied to a concrete section
produces the section with the same type and the patched text. -/
theorem claim_C10_witness :
    apply_transaction (Section.mk "Body" "aaa\n")
        (Transaction.mk (create_patches "aaa\n" "bbb\n"))
      = .ok { section_type := "Body", text := "bbb\n" } :=
  (claim_C10 (Section.mk "Body" "aaa\n")
      (Transaction.mk (create_patches "aaa\n" "bbb\n"))).2.1 "bbb\n" rfl
